import Mathlib

set_option maxHeartbeats 1000000

/- Shallow embedding of the ShinCrypt encryption core
   (src/src/logic/encryption.rs and src/src/logic/global.rs).

   Modelling conventions:
   - a byte is a `Nat` (byte buffers are `List Nat`); where a byte-range
     constraint matters it appears as an explicit hypothesis `b < 256`;
   - `f64` progress fractions are modelled as rationals;
   - the XChaCha20 keystream is abstracted as a function `Nat → Nat`
     (keystream byte at each position); `apply_keystream` XORs the data
     with the keystream at the running cipher position and advances the
     position, which is exactly the behaviour of a stream cipher that the
     claims depend on.  The key/nonce-to-keystream map of the external
     chacha20 crate is abstracted as a parameter `ksOf password salt nonce`;
   - Rust panics are modelled as `Option.none` or an `Except.error`
     carrying a message that starts with `panic`;
   - fallible code returns `Except`/`Option`. -/

def SIZE_1MB : Nat := 1024 * 1024

def FILE_HEADER_SIZE : Nat := SIZE_1MB

def CHUNK : Nat := SIZE_1MB

def NONCE_SIZE : Nat := 24

def ENCRYPTION_VERSION : Nat := 1

/-- Buffer size used internally by std::io::copy when streaming bytes. -/
def DEFAULT_BUF_SIZE : Nat := 8192

/-- Model of `cipher.apply_keystream` of the chacha20 crate: XOR the data
with the keystream starting at cipher position `p`; the cipher position
advances by one per byte. -/
def applyKs (ks : Nat → Nat) : Nat → List Nat → List Nat
  | _, [] => []
  | p, b :: rest => Nat.xor b (ks p) :: applyKs ks (p + 1) rest

/-- Progress value computed by `send_progress_update`
(encryption.rs lines 62-73 and 142-153): fraction processed/total when the
total size is known, raw byte count otherwise. -/
def progressVal (processed : Nat) (total : Option Nat) : ℚ :=
  match total with
  | some s => (processed : ℚ) / (s : ℚ)
  | none => (processed : ℚ)

/-- Model of `send_progress_update` (encryption.rs lines 62-73; the
DecryptingReader version at lines 142-153 has the identical body).
The source runs `sender.send(progress).unwrap()`: a crossbeam send fails
exactly when every receiver has been dropped, and `unwrap` on that error
panics.  `receiverAlive` records whether a listener still exists. -/
def send_progress_update (hasSender receiverAlive : Bool) (processed : Nat)
    (total : Option Nat) : Except String (Option ℚ) :=
  if hasSender then
    let progress := progressVal processed total
    if receiverAlive then Except.ok (some progress)
    else Except.error "panic at unwrap of SendError"
  else Except.ok none

/-- Classification of an input path (global.rs lines 7-11). -/
inductive FileDir where
  | File
  | Directory
deriving DecidableEq

/-- Model of `FileDir::what` (global.rs lines 14-27); the three booleans
stand for the filesystem facts queried by the source. -/
def FileDir.what (pathExists isAFile isADir : Bool) : Except String FileDir :=
  if !pathExists then Except.error "Invalid path"
  else if isAFile then Except.ok FileDir.File
  else if isADir then Except.ok FileDir.Directory
  else Except.error ""

/-- Model of encryption.rs lines 379-380: the local `file` is
`FileDir::what(path).map(|v| v == FileDir::Directory).unwrap()` and
`packed` is a copy of it.  The pair is (packed, file) in the order the
two flags are later passed to `FileHeader::new`. -/
def encryptHeaderFlags (kind : FileDir) : Bool × Bool :=
  let file := kind == FileDir.Directory
  let packed := file
  (packed, file)

/-- Encryption method tag (encryption.rs lines 19-24). -/
inductive EncMethod where
  | XChaCha20
deriving DecidableEq

/-- Numeric value of the method tag (`EncMethod::XChaCha20 = 1`). -/
def EncMethod.toU16 : EncMethod → Nat
  | EncMethod.XChaCha20 => 1

/-- Model of `EncMethod::from_u16` (encryption.rs lines 27-32). -/
def EncMethod.from_u16 (num : Nat) : Option EncMethod :=
  match num with
  | 1 => some EncMethod.XChaCha20
  | _ => none

/-- Little-endian byte pair of a u16 value (`to_le_bytes`). -/
def le16 (n : Nat) : List Nat := [n % 256, n / 256 % 256]

/-- Value of a 2-byte little-endian slice (`u16::from_le_bytes`). -/
def le16valL (l : List Nat) : Nat :=
  match l with
  | b0 :: b1 :: _ => b0 + 256 * b1
  | _ => 0

/-- Model of `buf[pos..pos+sub.len()].copy_from_slice(&sub)`: `none` models
the panic when the target range does not fit in the buffer. -/
def setSlice (l : List Nat) (pos : Nat) (sub : List Nat) : Option (List Nat) :=
  if pos + sub.length ≤ l.length then
    some (l.take pos ++ sub ++ l.drop (pos + sub.length))
  else none

/-- Model of `vec.get(pos..pos+len)` on a byte slice. -/
def listSlice (l : List Nat) (pos len : Nat) : Option (List Nat) :=
  if pos + len ≤ l.length then some ((l.drop pos).take len) else none

/-- Continuation byte test for UTF-8 (0x80..0xBF). -/
def isCont (b : Nat) : Bool := 128 ≤ b && b < 192

/-- Well-formed UTF-8 test on a byte list; models the success condition of
`String::from_utf8` (rejects overlong forms, surrogates and values above
U+10FFFF, exactly as Rust does). -/
def validUtf8 : List Nat → Bool
  | [] => true
  | b :: rest =>
    if b < 128 then validUtf8 rest
    else if b < 194 then false
    else if b < 224 then
      match rest with
      | b1 :: r => isCont b1 && validUtf8 r
      | [] => false
    else if b = 224 then
      match rest with
      | b1 :: b2 :: r => (160 ≤ b1 && b1 < 192) && isCont b2 && validUtf8 r
      | _ => false
    else if b < 237 then
      match rest with
      | b1 :: b2 :: r => isCont b1 && isCont b2 && validUtf8 r
      | _ => false
    else if b = 237 then
      match rest with
      | b1 :: b2 :: r => (128 ≤ b1 && b1 < 160) && isCont b2 && validUtf8 r
      | _ => false
    else if b < 240 then
      match rest with
      | b1 :: b2 :: r => isCont b1 && isCont b2 && validUtf8 r
      | _ => false
    else if b = 240 then
      match rest with
      | b1 :: b2 :: b3 :: r =>
          (144 ≤ b1 && b1 < 192) && isCont b2 && isCont b3 && validUtf8 r
      | _ => false
    else if b < 244 then
      match rest with
      | b1 :: b2 :: b3 :: r =>
          isCont b1 && isCont b2 && isCont b3 && validUtf8 r
      | _ => false
    else if b = 244 then
      match rest with
      | b1 :: b2 :: b3 :: r =>
          (128 ≤ b1 && b1 < 144) && isCont b2 && isCont b3 && validUtf8 r
      | _ => false
    else false

/-- FileHeader record (encryption.rs lines 184-195).  `name` and `path`
hold the UTF-8 bytes of the Rust `String` / `PathBuf` fields. -/
structure FileHeader where
  packed : Bool
  file : Bool
  version : Nat
  encryption : EncMethod
  name_len : Nat
  name : List Nat
  path_len : Nat
  path : List Nat
deriving DecidableEq

/-- Model of `FileHeader::new` (encryption.rs lines 198-211): the length
fields are the byte lengths cast `as u16`, hence reduced mod 65536. -/
def FileHeader.new (packed file : Bool) (version : Nat) (encryption : EncMethod)
    (name path : List Nat) : FileHeader :=
  { packed := packed
    file := file
    version := version
    encryption := encryption
    name_len := name.length % 65536
    name := name
    path_len := path.length % 65536
    path := path }

/-- Model of `FileHeader::to_vec` (encryption.rs lines 213-263): write the
fields sequentially into a zero buffer of FILE_HEADER_SIZE bytes.  The
source does not bounds-check; an out-of-range copy panics, modelled as
`none`.  Note the source recomputes `name_len` from `self.name` but takes
`path_len` from the stored field. -/
def FileHeader.to_vec (h : FileHeader) : Option (List Nat) :=
  Option.bind (setSlice (List.replicate FILE_HEADER_SIZE 0) 0
      (le16 (if h.packed then 1 else 0))) fun v1 =>
  Option.bind (setSlice v1 2 (le16 (if h.file then 1 else 0))) fun v2 =>
  Option.bind (setSlice v2 4 (le16 (h.version % 65536))) fun v3 =>
  Option.bind (setSlice v3 6 (le16 h.encryption.toU16)) fun v4 =>
  Option.bind (setSlice v4 8 (le16 (h.name.length % 65536))) fun v5 =>
  Option.bind (setSlice v5 10 h.name) fun v6 =>
  Option.bind (setSlice v6 (10 + h.name.length) (le16 (h.path_len % 65536))) fun v7 =>
  setSlice v7 (12 + h.name.length) h.path

/-- Model of `FileHeader::from_vec` (encryption.rs lines 265-333). -/
def FileHeader.from_vec (vec : List Nat) : Except String FileHeader :=
  if vec.length ≠ FILE_HEADER_SIZE then Except.error "Incorrect header" else
  match listSlice vec 0 2 with
  | none => Except.error "Failed to get slice"
  | some packed_slice =>
  match listSlice vec 2 2 with
  | none => Except.error "Failed to get slice"
  | some file_slice =>
  match listSlice vec 4 2 with
  | none => Except.error "Failed to get slice"
  | some version_slice =>
  match listSlice vec 6 2 with
  | none => Except.error "Failed to get slice"
  | some enc_slice =>
  match listSlice vec 8 2 with
  | none => Except.error "Failed to get slice"
  | some name_len_slice =>
  let name_len := le16valL name_len_slice
  match listSlice vec 10 name_len with
  | none => Except.error "Failed to get slice"
  | some name_slice =>
  if validUtf8 name_slice then
    match listSlice vec (10 + name_len) 2 with
    | none => Except.error "Failed to get slice"
    | some path_len_slice =>
    let path_len := le16valL path_len_slice
    match listSlice vec (12 + name_len) path_len with
    | none => Except.error "Failed to get slice"
    | some path_slice =>
    if validUtf8 path_slice then
      match EncMethod.from_u16 (le16valL enc_slice) with
      | none => Except.error "Invalid encryption method"
      | some enc =>
          Except.ok
            { packed := le16valL packed_slice != 0
              file := le16valL file_slice != 0
              version := le16valL version_slice
              encryption := enc
              name_len := name_len
              name := name_slice
              path_len := path_len
              path := path_slice }
    else Except.error "Invalid UTF-8 in name"
  else Except.error "Invalid UTF-8 in name"

/-- Name length a decoder reads from a raw header buffer (offset 8). -/
def headerNameLen (vec : List Nat) : Nat := le16valL ((vec.drop 8).take 2)

/-- Name byte slice a decoder reads from a raw header buffer (offset 10). -/
def headerNameSlice (vec : List Nat) : List Nat :=
  (vec.drop 10).take (headerNameLen vec)

/-- Path length a decoder reads from a raw header buffer. -/
def headerPathLen (vec : List Nat) : Nat :=
  le16valL ((vec.drop (10 + headerNameLen vec)).take 2)

/-- Path byte slice a decoder reads from a raw header buffer. -/
def headerPathSlice (vec : List Nat) : List Nat :=
  (vec.drop (12 + headerNameLen vec)).take (headerPathLen vec)

/-- Encryption method tag a decoder reads from a raw header buffer
(offset 6). -/
def headerEncVal (vec : List Nat) : Nat := le16valL ((vec.drop 6).take 2)

/- Stream cipher adapters.  Downstream writes are recorded as a list of
byte lists (one entry per write_all call); progress samples as rationals.
The progress receiver is taken to be alive here (the unwrap-panic of
send_progress_update when it is not is treated separately). -/

/-- State of the EncryptingWriter (encryption.rs lines 35-42).  The cipher
is split into the keystream function (a parameter of the operations) and
the running position `pos` stored here. -/
structure EncryptingWriter where
  inner : List (List Nat)
  pos : Nat
  buffer : List Nat
  hasSender : Bool
  totalBytesProcessed : Nat
  totalInputSize : Option Nat
  samples : List ℚ
deriving DecidableEq

/-- Append a progress sample when a sender is attached. -/
def EncryptingWriter.emit (w : EncryptingWriter) : EncryptingWriter :=
  if w.hasSender then
    { w with samples :=
        w.samples ++ [progressVal w.totalBytesProcessed w.totalInputSize] }
  else w

/-- Fresh writer wrapping an output sink (encryption.rs lines 44-54), with
the cipher position it inherits from the cipher instance handed to it. -/
def EncryptingWriter.new (cipherPos : Nat) : EncryptingWriter :=
  { inner := []
    pos := cipherPos
    buffer := []
    hasSender := false
    totalBytesProcessed := 0
    totalInputSize := none
    samples := [] }

/-- Body of the while loop of `EncryptingWriter::write` (encryption.rs
lines 80-92): while a full chunk is buffered, cipher-transform the first
CHUNK bytes, write them downstream, drop them from the buffer, add CHUNK
to the progress counter and emit a sample.  Structural fuel; any fuel of
at least `buffer.length` reaches the loop exit. -/
def writeLoop (ks : Nat → Nat) : Nat → EncryptingWriter → EncryptingWriter
  | 0, w => w
  | fuel + 1, w =>
    if CHUNK ≤ w.buffer.length then
      let chunk := applyKs ks w.pos (w.buffer.take CHUNK)
      writeLoop ks fuel (EncryptingWriter.emit
        { w with
          inner := w.inner ++ [chunk]
          pos := w.pos + CHUNK
          buffer := w.buffer.drop CHUNK
          totalBytesProcessed := w.totalBytesProcessed + CHUNK })
    else w

/-- Model of `EncryptingWriter::write` (encryption.rs lines 77-95): append
the incoming bytes to the buffer, then run the chunk loop.  The fuel
`w.buffer.length + buf.length` always suffices. -/
def EncryptingWriter.write (ks : Nat → Nat) (w : EncryptingWriter)
    (buf : List Nat) : EncryptingWriter :=
  writeLoop ks (w.buffer.length + buf.length) { w with buffer := w.buffer ++ buf }

/-- Model of `EncryptingWriter::flush` (encryption.rs lines 97-110): if the
buffer is nonempty, cipher-transform it, write it downstream once, clear
it, count it and emit a sample; finally flush the inner sink (a no-op
here). -/
def EncryptingWriter.flush (ks : Nat → Nat) (w : EncryptingWriter) : EncryptingWriter :=
  if w.buffer.isEmpty then w
  else
    EncryptingWriter.emit
      { w with
        inner := w.inner ++ [applyKs ks w.pos w.buffer]
        buffer := []
        totalBytesProcessed := w.totalBytesProcessed + w.buffer.length }

/-- Bytes written downstream so far, in order. -/
def EncryptingWriter.outBytes (w : EncryptingWriter) : List Nat := w.inner.flatten

/-- Model of `std::io::copy(&mut src, &mut writer)`: stream `src` through
the writer in DEFAULT_BUF_SIZE pieces.  Lemma `ioCopy_eq_write` shows the
piece size is irrelevant to the resulting state. -/
def ioCopyLoop (ks : Nat → Nat) : Nat → EncryptingWriter → List Nat → EncryptingWriter
  | 0, w, _ => w
  | fuel + 1, w, src =>
    if src.isEmpty then w
    else ioCopyLoop ks fuel
      (EncryptingWriter.write ks w (src.take DEFAULT_BUF_SIZE))
      (src.drop DEFAULT_BUF_SIZE)

/-- Copy a whole source through the writer (fuel `src.length` suffices). -/
def ioCopy (ks : Nat → Nat) (w : EncryptingWriter) (src : List Nat) : EncryptingWriter :=
  ioCopyLoop ks (src.length + 1) w src

/-- Transformed chunk sequence produced by `q` iterations of the write
loop starting at cipher position `pos` on buffer `l` (specification-side
helper used to state the write loop lemmas). -/
def chunksOf (ks : Nat → Nat) : Nat → Nat → List Nat → List (List Nat)
  | _, 0, _ => []
  | pos, q + 1, l =>
      applyKs ks pos (l.take CHUNK) :: chunksOf ks (pos + CHUNK) q (l.drop CHUNK)

/-- Progress samples produced by `q` iterations of the write loop starting
from `p` processed bytes (specification-side helper). -/
def emitSeq (hasSender : Bool) (total : Option Nat) : Nat → Nat → List ℚ
  | _, 0 => []
  | p, q + 1 =>
      (if hasSender then [progressVal (p + CHUNK) total] else [])
        ++ emitSeq hasSender total (p + CHUNK) q

/-- State of the DecryptingReader (encryption.rs lines 113-121).  `inner`
is the remaining underlying byte stream; `cpos` the cipher position. -/
structure DecryptingReader where
  inner : List Nat
  buffer : List Nat
  pos : Nat
  cpos : Nat
  hasSender : Bool
  totalBytesProcessed : Nat
  totalInputSize : Option Nat
  samples : List ℚ
deriving DecidableEq

/-- Append a progress sample when a sender is attached. -/
def DecryptingReader.emit (r : DecryptingReader) : DecryptingReader :=
  if r.hasSender then
    { r with samples :=
        r.samples ++ [progressVal r.totalBytesProcessed r.totalInputSize] }
  else r

/-- Fresh reader wrapping an input stream (encryption.rs lines 123-134). -/
def DecryptingReader.new (stream : List Nat) : DecryptingReader :=
  { inner := stream
    buffer := []
    pos := 0
    cpos := 0
    hasSender := false
    totalBytesProcessed := 0
    totalInputSize := none
    samples := [] }

/-- Serve bytes from the decrypted buffer (encryption.rs lines 176-180):
copy `min len (buffer.len - pos)` bytes from the cursor and advance it. -/
def DecryptingReader.serve (r : DecryptingReader) (len : Nat) : List Nat × DecryptingReader :=
  let m := min len (r.buffer.length - r.pos)
  ((r.buffer.drop r.pos).take m, { r with pos := r.pos + m })

/-- Model of `DecryptingReader::read` (encryption.rs lines 157-181).  When
the cursor has consumed the whole buffer, refill: read up to CHUNK bytes
from the underlying source, cipher-transform them in place, reset the
cursor, count them and emit a sample; a zero-byte refill signals
end-of-stream.  The source accepts any short read from `inner`; the model
resolves that nondeterminism to the maximum available (at most CHUNK),
and the claims proved below do not depend on this choice. -/
def DecryptingReader.read (ks : Nat → Nat) (r : DecryptingReader) (len : Nat) :
    List Nat × DecryptingReader :=
  if r.pos = r.buffer.length then
    let n := min CHUNK r.inner.length
    if n = 0 then ([], r)
    else
      let r2 := DecryptingReader.emit
        { r with
          inner := r.inner.drop n
          buffer := applyKs ks r.cpos (r.inner.take n)
          pos := 0
          cpos := r.cpos + n
          totalBytesProcessed := r.totalBytesProcessed + n }
      DecryptingReader.serve r2 len
  else DecryptingReader.serve r len

/-- Model of `read_exact`: repeatedly read until `need` bytes are
gathered; a read that returns no bytes before that is an unexpected
end-of-file error.  Structural fuel; `need + 1` always suffices because
every successful read serves at least one byte. -/
def readExactLoop (ks : Nat → Nat) : Nat → DecryptingReader → Nat → List Nat →
    Except String (List Nat × DecryptingReader)
  | 0, _, _, _ => Except.error "out of fuel"
  | fuel + 1, r, need, acc =>
    if need = 0 then Except.ok (acc, r)
    else
      let got := (DecryptingReader.read ks r need).1
      let r2 := (DecryptingReader.read ks r need).2
      if got.isEmpty then Except.error "failed to fill whole buffer"
      else readExactLoop ks fuel r2 (need - got.length) (acc ++ got)

/-- Read exactly `need` bytes through the decrypting reader. -/
def readExact (ks : Nat → Nat) (r : DecryptingReader) (need : Nat) :
    Except String (List Nat × DecryptingReader) :=
  readExactLoop ks (need + 1) r need []

/-- Model of draining the reader (`std::io::copy` out of it, or the tar
unpacker consuming it): read DEFAULT_BUF_SIZE at a time until a read
returns no bytes. -/
def drainLoop (ks : Nat → Nat) : Nat → DecryptingReader → List Nat →
    List Nat × DecryptingReader
  | 0, r, acc => (acc, r)
  | fuel + 1, r, acc =>
    let got := (DecryptingReader.read ks r DEFAULT_BUF_SIZE).1
    let r2 := (DecryptingReader.read ks r DEFAULT_BUF_SIZE).2
    if got.isEmpty then (acc, r2)
    else drainLoop ks fuel r2 (acc ++ got)

/-- Drain everything remaining in the reader. -/
def drainAll (ks : Nat → Nat) (r : DecryptingReader) : List Nat × DecryptingReader :=
  drainLoop ks (r.inner.length + r.buffer.length + 1) r []

/-- Bytes the reader can still deliver: the unserved part of the decrypted
buffer followed by the decryption of the remaining underlying stream. -/
def DecryptingReader.avail (ks : Nat → Nat) (r : DecryptingReader) : List Nat :=
  r.buffer.drop r.pos ++ applyKs ks r.cpos r.inner

/- Salt handling and output path naming. -/

/-- ASCII whitespace test used by the `str::trim` model (the salt is
base64 text, so only ASCII whitespace can be relevant). -/
def isAsciiWs (b : Nat) : Bool := b == 9 || b == 10 || b == 13 || b == 32

/-- Model of `str::trim` on the byte level. -/
def trimBytes (l : List Nat) : List Nat :=
  ((l.dropWhile isAsciiWs).reverse.dropWhile isAsciiWs).reverse

/-- Standard base64 alphabet byte test. -/
def isB64Char (b : Nat) : Bool :=
  (65 ≤ b && b ≤ 90) || (97 ≤ b && b ≤ 122) || (48 ≤ b && b ≤ 57) || b == 43 || b == 47

/-- Model of the success condition of
`argon2::password_hash::SaltString::from_b64`: between 4 and 64 base64
characters. -/
def isValidSalt (l : List Nat) : Bool :=
  4 ≤ l.length && l.length ≤ 64 && l.all isB64Char

/-- Model of `BufRead::read_line`: split the stream after the first
newline byte (or at end-of-stream), returning the line (newline
included) and the remainder. -/
def readLineBytes : List Nat → List Nat × List Nat
  | [] => ([], [])
  | b :: rest =>
    if b == 10 then ([b], rest)
    else
      let r := readLineBytes rest
      (b :: r.1, r.2)

/-- Container extension `snc` as characters (ENCRYPTION_EXT). -/
def sncExtChars : List Char := ['s', 'n', 'c']

/-- Suffix appended by the collision disambiguation. -/
def newSuffixChars : List Char := [' ', '-', ' ', 'n', 'e', 'w']

/-- Index of the last dot in a file name, if any. -/
def lastDotIdx : List Char → Option Nat
  | [] => none
  | c :: rest =>
    match lastDotIdx rest with
    | some i => some (i + 1)
    | none => if c = '.' then some 0 else none

/-- Model of Rust `Path::file_stem` on a single file name component: the
part before the last dot; the whole name when there is no dot or when the
only dot is a leading one (hidden files). -/
def fileStem (f : List Char) : List Char :=
  match lastDotIdx f with
  | none => f
  | some 0 => f
  | some i => f.take i

/-- Model of Rust `Path::with_extension` / `set_extension` on a single
file name component with a nonempty extension: replace everything after
the last dot (append when there is no extension). -/
def withExtension (f ext : List Char) : List Char :=
  if ext.isEmpty then fileStem f else fileStem f ++ '.' :: ext

/-- Model of the output path computation of `encrypt_file`
(encryption.rs lines 398-408).  Paths are component lists; the input path
is `inputDir ++ [fileName]`.  The default output is
`output_dir.join(file_name).with_extension("snc")`; when that equals the
input path the file name becomes `"{file_stem} - new"` followed by
`set_extension("snc")`. -/
def encryptOutputPath (inputDir outputDir : List (List Char)) (fileName : List Char) :
    List (List Char) :=
  let inputPath := inputDir ++ [fileName]
  let defOutput := outputDir ++ [withExtension fileName sncExtChars]
  if inputPath = defOutput then
    outputDir ++ [withExtension (fileStem fileName ++ newSuffixChars) sncExtChars]
  else defOutput

/- Orchestrator models (encrypt_file lines 373-477, decrypt_file lines
479-555).  Filesystem access is abstracted: the input classification, the
input bytes (raw file content, or for a directory the tar byte stream
produced by the external tar crate through the writer) and the size
returned by fs_extra are parameters.  The Argon2 key derivation composed
with XChaCha20 keystream generation is the abstract parameter `ksOf`:
deterministic in (password, salt, nonce). -/

/-- Case analysis combinator for Except (kept as a plain function so that
evaluation lemmas rewrite by congruence). -/
def exceptElim {A B : Type} (e : Except String A) (f : String → B) (g : A → B) : B :=
  match e with
  | Except.error s => f s
  | Except.ok a => g a

/-- Result of a successful encrypt_file run. -/
structure EncResult where
  container : List Nat
  samples : List ℚ
deriving DecidableEq

/-- Result of a successful decrypt_file run: the decoded header, the raw
(still encrypted-then-decrypted) fixed-width header block, the decrypted
payload bytes handed to the tar unpacker or written to the output file,
and the emitted progress samples. -/
structure DecResult where
  header : FileHeader
  headerBytes : List Nat
  payload : List Nat
  samples : List ℚ

/-- Model of `ShinCrypt::encrypt_file` (encryption.rs lines 373-477) after
the filesystem abstraction.  `kind` is the classification of the existing
input path, `payload` the byte stream fed through the encrypting writer
(raw file bytes, or the tar stream for a packed input), `fileSize` the
fs_extra size used for progress totals. -/
def encryptFileModel (ksOf : List Nat → List Nat → List Nat → Nat → Nat)
    (kind : FileDir) (fileName inputPathStr payload : List Nat)
    (password salt nonce : List Nat) (fileSize : Nat) (progressAttached : Bool) :
    Except String EncResult :=
  Option.elim
    (FileHeader.to_vec (FileHeader.new (encryptHeaderFlags kind).1
      (encryptHeaderFlags kind).2 ENCRYPTION_VERSION EncMethod.XChaCha20
      fileName inputPathStr))
    (Except.error "panic in to_vec: header fields exceed FILE_HEADER_SIZE")
    (fun file_h_vec =>
      Except.ok
        { container := salt ++ [10] ++ nonce
            ++ applyKs (ksOf password salt nonce) 0 file_h_vec
            ++ (EncryptingWriter.flush (ksOf password salt nonce)
                (ioCopy (ksOf password salt nonce)
                  { EncryptingWriter.new file_h_vec.length with
                    hasSender := progressAttached
                    totalInputSize := some fileSize }
                  payload)).outBytes
          samples := (EncryptingWriter.flush (ksOf password salt nonce)
                (ioCopy (ksOf password salt nonce)
                  { EncryptingWriter.new file_h_vec.length with
                    hasSender := progressAttached
                    totalInputSize := some fileSize }
                  payload)).samples })

/-- Model of `ShinCrypt::decrypt_file` (encryption.rs lines 479-555) after
the filesystem abstraction: read the salt line and nonce in plaintext,
derive the keystream, wrap the remainder in the decrypting reader, read
and decode one fixed-width header block, attach the progress sender, then
drain the rest (tar unpack or single-file copy both consume the whole
remaining stream). -/
def decryptFileModel (ksOf : List Nat → List Nat → List Nat → Nat → Nat)
    (container password : List Nat) (progressAttached : Bool) :
    Except String DecResult :=
  if !isValidSalt (trimBytes (readLineBytes container).1) then
    Except.error "Invalid salt format"
  else if (readLineBytes container).2.length < NONCE_SIZE then
    Except.error "Failed to read nonce"
  else
    exceptElim
      (readExact
        (ksOf password (trimBytes (readLineBytes container).1)
          ((readLineBytes container).2.take NONCE_SIZE))
        (DecryptingReader.new ((readLineBytes container).2.drop NONCE_SIZE))
        FILE_HEADER_SIZE)
      (fun _ => Except.error "Failed to read file header")
      (fun res =>
        exceptElim (FileHeader.from_vec res.1)
          (fun e => Except.error ("Invalid file header: " ++ e))
          (fun file_h =>
            Except.ok
              { header := file_h
                headerBytes := res.1
                payload := (drainAll
                    (ksOf password (trimBytes (readLineBytes container).1)
                      ((readLineBytes container).2.take NONCE_SIZE))
                    (if progressAttached then
                      { res.2 with
                        hasSender := true
                        totalInputSize := some container.length }
                     else res.2)).1
                samples := (drainAll
                    (ksOf password (trimBytes (readLineBytes container).1)
                      ((readLineBytes container).2.take NONCE_SIZE))
                    (if progressAttached then
                      { res.2 with
                        hasSender := true
                        totalInputSize := some container.length }
                     else res.2)).2.samples }))

/- Lemmas about the keystream application. -/

theorem applyKs_length (ks : Nat → Nat) (p : Nat) (l : List Nat) :
    (applyKs ks p l).length = l.length := by
  induction l generalizing p with
  | nil => rfl
  | cons b rest ih => simp [applyKs, ih]

theorem applyKs_append (ks : Nat → Nat) (p : Nat) (a b : List Nat) :
    applyKs ks p (a ++ b) = applyKs ks p a ++ applyKs ks (p + a.length) b := by
  induction a generalizing p with
  | nil => simp [applyKs]
  | cons x rest ih =>
    simp only [List.cons_append, List.length_cons, applyKs, List.append_eq]
    rw [ih (p + 1)]
    have harg : p + 1 + rest.length = p + (rest.length + 1) := by omega
    rw [harg]

theorem applyKs_applyKs (ks : Nat → Nat) (p : Nat) (l : List Nat) :
    applyKs ks p (applyKs ks p l) = l := by
  induction l generalizing p with
  | nil => rfl
  | cons b rest ih =>
    simp only [applyKs, ih]
    exact congrArg (fun z => z :: rest) (Nat.xor_cancel_right (ks p) b)

theorem applyKs_take (ks : Nat → Nat) (p n : Nat) (l : List Nat) :
    applyKs ks p (l.take n) = (applyKs ks p l).take n := by
  induction l generalizing p n with
  | nil => simp [applyKs]
  | cons b rest ih =>
    cases n with
    | zero => simp [applyKs]
    | succ m => simp [applyKs, ih]

theorem applyKs_drop (ks : Nat → Nat) (p n : Nat) (l : List Nat) :
    applyKs ks (p + n) (l.drop n) = (applyKs ks p l).drop n := by
  induction l generalizing p n with
  | nil => simp [applyKs]
  | cons b rest ih =>
    cases n with
    | zero => simp [applyKs]
    | succ m =>
      simp only [List.drop_succ_cons, applyKs, List.drop]
      have : p + (m + 1) = (p + 1) + m := by ring
      rw [this, ih]

theorem applyKs_zero_ks (p : Nat) (l : List Nat) :
    applyKs (fun _ => 0) p l = l := by
  induction l generalizing p with
  | nil => rfl
  | cons b rest ih =>
    simp only [applyKs, ih]
    exact congrArg (fun z => z :: rest) (Nat.xor_zero b)

/- Claim C3: the source comment says a send failure with no listener is
ignored, but the code calls unwrap on the send result, which panics. -/

/-- Claim C3 (code_bug evidence): with a progress sender attached whose
receiver has been dropped (no listener), `send_progress_update` panics
via `unwrap` instead of ignoring the failed send, so the enclosing
write/read call aborts; the claim (and the source comment at
encryption.rs line 71) say the failure is ignored. -/
theorem C3_send_panics_when_no_listener :
    send_progress_update true false 5 (some 10)
      = Except.error "panic at unwrap of SendError"
    ∧ send_progress_update true true 5 (some 10) = Except.ok (some (1 / 2))
    ∧ send_progress_update false false 5 (some 10) = Except.ok none := by
  refine ⟨rfl, ?_, rfl⟩
  show Except.ok (some (progressVal 5 (some 10))) = Except.ok (some (1 / 2))
  norm_num [progressVal]

/- Claim C10: encryption.rs line 379 computes
`file = (FileDir::what(path) == Directory)`, so the header `file` flag is
true exactly for a DIRECTORY input, the opposite of the claim. -/

/-- Claim C10 (code_bug evidence): the (packed, file) flag pair stored in
the header is (false, false) for a regular-file input and (true, true)
for a directory input: `packed` matches the claim, but `is_file` is the
negation of what the claim states (true exactly for directories). -/
theorem C10_is_file_flag_inverted :
    encryptHeaderFlags FileDir.File = (false, false)
    ∧ encryptHeaderFlags FileDir.Directory = (true, true)
    ∧ (FileHeader.new (encryptHeaderFlags FileDir.File).1
        (encryptHeaderFlags FileDir.File).2 ENCRYPTION_VERSION
        EncMethod.XChaCha20 [97] [97]).file = false := by
  exact ⟨rfl, rfl, rfl⟩

/- Lemmas for the output path computation (claim C4). -/

theorem lastDotIdx_lt (l : List Char) (i : Nat) (h : lastDotIdx l = some i) :
    i < l.length := by
  induction l generalizing i with
  | nil => simp [lastDotIdx] at h
  | cons c rest ih =>
    simp only [lastDotIdx] at h
    cases hrest : lastDotIdx rest with
    | some j =>
      rw [hrest] at h
      have := ih j hrest
      simp only [Option.some.injEq] at h
      simp [← h]
      omega
    | none =>
      rw [hrest] at h
      by_cases hc : c = '.'
      · simp [hc] at h
        simp [← h]
      · simp [hc] at h

theorem lastDotIdx_get (l : List Char) (i : Nat) (h : lastDotIdx l = some i) :
    l.get? i = some '.' := by
  induction l generalizing i with
  | nil => simp [lastDotIdx] at h
  | cons c rest ih =>
    simp only [lastDotIdx] at h
    cases hrest : lastDotIdx rest with
    | some j =>
      rw [hrest] at h
      simp only [Option.some.injEq] at h
      subst h
      simpa using ih j hrest
    | none =>
      rw [hrest] at h
      by_cases hc : c = '.'
      · simp [hc] at h
        subst h
        simp [hc]
      · simp [hc] at h

theorem lastDotIdx_append_lt (x y : List Char) (i : Nat)
    (hy : ∀ c ∈ y, c ≠ '.') (h : lastDotIdx (x ++ y) = some i) : i < x.length := by
  have hlt := lastDotIdx_lt (x ++ y) i h
  have hget := lastDotIdx_get (x ++ y) i h
  by_contra hge
  push_neg at hge
  rw [List.get?_append_right hge] at hget
  have hmem : '.' ∈ y := by
    have := List.get?_mem hget
    exact this
  exact hy '.' hmem rfl

theorem fileStem_append_suffix_length (x : List Char) :
    (fileStem (x ++ newSuffixChars)).length ≠ x.length := by
  have hy : ∀ c ∈ newSuffixChars, c ≠ '.' := by decide
  unfold fileStem
  cases hidx : lastDotIdx (x ++ newSuffixChars) with
  | none =>
    simp [newSuffixChars]
  | some i =>
    have hlt := lastDotIdx_append_lt x newSuffixChars i hy hidx
    cases i with
    | zero => simp [newSuffixChars]
    | succ j =>
      show (List.take (j + 1) (x ++ newSuffixChars)).length ≠ x.length
      simp only [List.length_take, List.length_append]
      simp only [newSuffixChars, List.length_cons, List.length_nil]
      omega

/-- Claim C4 (corrected form): the container path is
`output_dir.join(file_name).with_extension("snc")`, i.e. the final
extension of the input file name is REPLACED by the container extension
(appended only when the name has no extension); when that default path
equals the input path, the file name is replaced by
`"{file_stem} - new"` re-extended with the container extension, and the
resulting path never equals the input path, so the input is not
overwritten. -/
theorem C4_output_naming (inputDir outputDir : List (List Char)) (fileName : List Char) :
    (inputDir ++ [fileName] ≠ outputDir ++ [withExtension fileName sncExtChars] →
      encryptOutputPath inputDir outputDir fileName
        = outputDir ++ [withExtension fileName sncExtChars])
    ∧ (inputDir ++ [fileName] = outputDir ++ [withExtension fileName sncExtChars] →
      encryptOutputPath inputDir outputDir fileName
        = outputDir ++ [withExtension (fileStem fileName ++ newSuffixChars) sncExtChars]
      ∧ encryptOutputPath inputDir outputDir fileName ≠ inputDir ++ [fileName]) := by
  constructor
  · intro hne
    simp [encryptOutputPath, hne]
  · intro heq
    have hdirs : inputDir = outputDir ∧ fileName = withExtension fileName sncExtChars := by
      have hlen : [fileName].length = [withExtension fileName sncExtChars].length := by simp
      have := List.append_inj' heq hlen
      exact ⟨this.1, by simpa using this.2⟩
    constructor
    · simp [encryptOutputPath, heq]
    · simp only [encryptOutputPath, heq, if_pos]
      intro hcontra
      have hlen2 : [withExtension (fileStem fileName ++ newSuffixChars) sncExtChars].length
          = [fileName].length := by simp
      have hinj := List.append_inj' hcontra.symm hlen2.symm
      have hnn : withExtension fileName sncExtChars
          = withExtension (fileStem fileName ++ newSuffixChars) sncExtChars := by
        simpa using hinj.2
      have hnameeq : fileName = withExtension (fileStem fileName ++ newSuffixChars) sncExtChars :=
        hdirs.2.trans hnn
      have hfn : fileName = fileStem fileName ++ '.' :: sncExtChars := by
        have := hdirs.2
        simpa [withExtension, sncExtChars] using this
      have hlen3 : fileName.length = (fileStem fileName).length + 4 := by
        conv_lhs => rw [hfn]
        simp [sncExtChars]
      have hlen4 : fileName.length
          = (fileStem (fileStem fileName ++ newSuffixChars)).length + 4 := by
        have h1 : fileName.length
            = (withExtension (fileStem fileName ++ newSuffixChars) sncExtChars).length := by
          rw [← hnameeq]
        rw [h1]
        simp [withExtension, sncExtChars]
      have := fileStem_append_suffix_length (fileStem fileName)
      omega

/-- Claim C4 counterexample: for input file name `report.pdf` the container
name is `report.snc`, not the claimed `report.pdf.snc` (the full input
name with the container extension appended). -/
theorem C4_counterexample :
    encryptOutputPath [['i']] [['o']] ['r','e','p','o','r','t','.','p','d','f']
      ≠ [['o'], ['r','e','p','o','r','t','.','p','d','f','.','s','n','c']]
    ∧ encryptOutputPath [['i']] [['o']] ['r','e','p','o','r','t','.','p','d','f']
      = [['o'], ['r','e','p','o','r','t','.','s','n','c']] := by
  decide

/-- Claim C4 witness: the no-collision branch of `C4_output_naming`
applied at a concrete input. -/
theorem C4_output_naming_witness :
    encryptOutputPath [['i']] [['o']] ['a']
      = [['o'], ['a', '.', 's', 'n', 'c']] := by
  have h := (C4_output_naming [['i']] [['o']] ['a']).1 (by decide)
  exact h.trans (by decide)

/- Lemmas about the byte-slice primitives used by the header codec. -/

theorem setSlice_eq_some (l sub : List Nat) (pos : Nat)
    (h : pos + sub.length ≤ l.length) :
    setSlice l pos sub = some (l.take pos ++ sub ++ l.drop (pos + sub.length)) := by
  simp [setSlice, h]

theorem setSlice_length (l sub l2 : List Nat) (pos : Nat)
    (h : setSlice l pos sub = some l2) : l2.length = l.length := by
  unfold setSlice at h
  by_cases hc : pos + sub.length ≤ l.length
  · rw [if_pos hc] at h
    cases h
    simp
    omega
  · rw [if_neg hc] at h
    cases h

theorem setSlice_none (l sub : List Nat) (pos : Nat)
    (h : ¬ pos + sub.length ≤ l.length) : setSlice l pos sub = none := by
  simp [setSlice, h]

theorem listSlice_eq_some (l : List Nat) (pos len : Nat)
    (h : pos + len ≤ l.length) :
    listSlice l pos len = some ((l.drop pos).take len) := by
  simp [listSlice, h]

theorem setSlice_read_self (l sub l2 : List Nat) (pos : Nat)
    (h : setSlice l pos sub = some l2) :
    listSlice l2 pos sub.length = some sub := by
  have hb : pos + sub.length ≤ l.length := by
    by_contra hc
    rw [setSlice_none l sub pos hc] at h
    cases h
  rw [setSlice_eq_some l sub pos hb] at h
  cases h
  have hlen2 : (l.take pos ++ sub ++ l.drop (pos + sub.length)).length = l.length := by
    simp
    omega
  rw [listSlice_eq_some _ _ _ (by omega)]
  congr 1
  have htl : (l.take pos).length = pos := by simp; omega
  rw [List.append_assoc, List.drop_left' htl, List.take_append_eq_append_take,
    List.take_of_length_le (le_refl sub.length), Nat.sub_self]
  simp

theorem setSlice_preserves_outside (l sub l2 : List Nat) (pos : Nat)
    (h : setSlice l pos sub = some l2) (pos2 len2 : Nat)
    (hout : pos2 + len2 ≤ pos ∨ pos + sub.length ≤ pos2) :
    listSlice l2 pos2 len2 = listSlice l pos2 len2 := by
  have hb : pos + sub.length ≤ l.length := by
    by_contra hc
    rw [setSlice_none l sub pos hc] at h
    cases h
  rw [setSlice_eq_some l sub pos hb] at h
  cases h
  have htl : (l.take pos).length = pos := by simp; omega
  have hlen2 : (l.take pos ++ sub ++ l.drop (pos + sub.length)).length = l.length := by
    simp
    omega
  unfold listSlice
  rw [hlen2]
  by_cases hc : pos2 + len2 ≤ l.length
  · rw [if_pos hc, if_pos hc]
    congr 1
    rcases hout with hbefore | hafter
    · rw [List.append_assoc, List.drop_append_eq_append_drop, htl,
        List.take_append_eq_append_take]
      have h1 : pos2 - pos = 0 := by omega
      have h2 : len2 - ((l.take pos).drop pos2).length = 0 := by
        simp
        omega
      rw [h1, h2]
      simp only [List.drop_zero, List.take_zero, List.append_nil]
      rw [List.drop_take, List.take_take]
      congr 1
      omega
    · have hcl : (l.take pos ++ sub).length = pos + sub.length := by
        simp
        omega
      rw [List.drop_append_eq_append_drop, hcl]
      have h1 : (l.take pos ++ sub).drop pos2 = [] := by
        apply List.drop_eq_nil_of_le
        rw [hcl]
        omega
      rw [h1, List.nil_append, List.drop_drop]
      congr 2
      omega
  · rw [if_neg hc, if_neg hc]

theorem le16_length (n : Nat) : (le16 n).length = 2 := rfl

theorem le16valL_le16 (n : Nat) : le16valL (le16 n) = n % 65536 := by
  simp only [le16, le16valL]
  omega

theorem setSlice_drop_ge (l sub l2 : List Nat) (pos k : Nat)
    (h : setSlice l pos sub = some l2) (hk : pos + sub.length ≤ k) :
    l2.drop k = l.drop k := by
  have hb : pos + sub.length ≤ l.length := by
    by_contra hc
    rw [setSlice_none l sub pos hc] at h
    cases h
  rw [setSlice_eq_some l sub pos hb] at h
  cases h
  have hcl : (l.take pos ++ sub).length = pos + sub.length := by
    simp
    omega
  rw [List.drop_append_eq_append_drop, hcl]
  have h1 : (l.take pos ++ sub).drop k = [] := by
    apply List.drop_eq_nil_of_le
    rw [hcl]
    omega
  rw [h1, List.nil_append, List.drop_drop]
  congr 1
  omega

theorem setSlice_some_exists (l sub : List Nat) (pos : Nat)
    (h : pos + sub.length ≤ l.length) :
    ∃ l2, setSlice l pos sub = some l2 ∧ l2.length = l.length := by
  refine ⟨l.take pos ++ sub ++ l.drop (pos + sub.length), setSlice_eq_some l sub pos h, ?_⟩
  simp
  omega

/-- Full characterization of a successful `FileHeader::to_vec`: when the
fields fit, serialization succeeds, the buffer has exactly the fixed
width, each field is readable back at its offset, and all bytes past the
last field are zero. -/
theorem to_vec_spec (h : FileHeader)
    (hfit : 12 + h.name.length + h.path.length ≤ FILE_HEADER_SIZE) :
    ∃ v, FileHeader.to_vec h = some v
      ∧ v.length = FILE_HEADER_SIZE
      ∧ listSlice v 0 2 = some (le16 (if h.packed then 1 else 0))
      ∧ listSlice v 2 2 = some (le16 (if h.file then 1 else 0))
      ∧ listSlice v 4 2 = some (le16 (h.version % 65536))
      ∧ listSlice v 6 2 = some (le16 h.encryption.toU16)
      ∧ listSlice v 8 2 = some (le16 (h.name.length % 65536))
      ∧ listSlice v 10 h.name.length = some h.name
      ∧ listSlice v (10 + h.name.length) 2 = some (le16 (h.path_len % 65536))
      ∧ listSlice v (12 + h.name.length) h.path.length = some h.path
      ∧ v.drop (12 + h.name.length + h.path.length)
          = List.replicate (FILE_HEADER_SIZE - (12 + h.name.length + h.path.length)) 0 := by
  have hl0 : (List.replicate FILE_HEADER_SIZE 0 : List Nat).length = FILE_HEADER_SIZE := by
    simp
  obtain ⟨v1, hv1, hL1⟩ := setSlice_some_exists (List.replicate FILE_HEADER_SIZE 0)
    (le16 (if h.packed then 1 else 0)) 0 (by rw [le16_length, hl0]; omega)
  obtain ⟨v2, hv2, hL2⟩ := setSlice_some_exists v1
    (le16 (if h.file then 1 else 0)) 2 (by rw [le16_length, hL1, hl0]; omega)
  obtain ⟨v3, hv3, hL3⟩ := setSlice_some_exists v2
    (le16 (h.version % 65536)) 4 (by rw [le16_length, hL2, hL1, hl0]; omega)
  obtain ⟨v4, hv4, hL4⟩ := setSlice_some_exists v3
    (le16 h.encryption.toU16) 6 (by rw [le16_length, hL3, hL2, hL1, hl0]; omega)
  obtain ⟨v5, hv5, hL5⟩ := setSlice_some_exists v4
    (le16 (h.name.length % 65536)) 8 (by rw [le16_length, hL4, hL3, hL2, hL1, hl0]; omega)
  obtain ⟨v6, hv6, hL6⟩ := setSlice_some_exists v5
    h.name 10 (by rw [hL5, hL4, hL3, hL2, hL1, hl0]; omega)
  obtain ⟨v7, hv7, hL7⟩ := setSlice_some_exists v6
    (le16 (h.path_len % 65536)) (10 + h.name.length)
    (by rw [le16_length, hL6, hL5, hL4, hL3, hL2, hL1, hl0]; omega)
  obtain ⟨v8, hv8, hL8⟩ := setSlice_some_exists v7
    h.path (12 + h.name.length)
    (by rw [hL7, hL6, hL5, hL4, hL3, hL2, hL1, hl0]; omega)
  have hlen8 : v8.length = FILE_HEADER_SIZE := by
    rw [hL8, hL7, hL6, hL5, hL4, hL3, hL2, hL1, hl0]
  refine ⟨v8, ?_, hlen8, ?_, ?_, ?_, ?_, ?_, ?_, ?_, ?_, ?_⟩
  · unfold FileHeader.to_vec
    rw [hv1, Option.some_bind, hv2, Option.some_bind, hv3, Option.some_bind,
      hv4, Option.some_bind, hv5, Option.some_bind, hv6, Option.some_bind,
      hv7, Option.some_bind, hv8]
  · rw [setSlice_preserves_outside _ _ _ _ hv8 0 2 (Or.inl (by omega)),
      setSlice_preserves_outside _ _ _ _ hv7 0 2 (Or.inl (by omega)),
      setSlice_preserves_outside _ _ _ _ hv6 0 2 (Or.inl (by omega)),
      setSlice_preserves_outside _ _ _ _ hv5 0 2 (Or.inl (by simp [le16_length])),
      setSlice_preserves_outside _ _ _ _ hv4 0 2 (Or.inl (by simp [le16_length])),
      setSlice_preserves_outside _ _ _ _ hv3 0 2 (Or.inl (by simp [le16_length])),
      setSlice_preserves_outside _ _ _ _ hv2 0 2 (Or.inl (by simp [le16_length]))]
    have := setSlice_read_self _ _ _ _ hv1
    rwa [le16_length] at this
  · rw [setSlice_preserves_outside _ _ _ _ hv8 2 2 (Or.inl (by omega)),
      setSlice_preserves_outside _ _ _ _ hv7 2 2 (Or.inl (by omega)),
      setSlice_preserves_outside _ _ _ _ hv6 2 2 (Or.inl (by omega)),
      setSlice_preserves_outside _ _ _ _ hv5 2 2 (Or.inl (by simp [le16_length])),
      setSlice_preserves_outside _ _ _ _ hv4 2 2 (Or.inl (by simp [le16_length])),
      setSlice_preserves_outside _ _ _ _ hv3 2 2 (Or.inl (by simp [le16_length]))]
    have := setSlice_read_self _ _ _ _ hv2
    rwa [le16_length] at this
  · rw [setSlice_preserves_outside _ _ _ _ hv8 4 2 (Or.inl (by omega)),
      setSlice_preserves_outside _ _ _ _ hv7 4 2 (Or.inl (by omega)),
      setSlice_preserves_outside _ _ _ _ hv6 4 2 (Or.inl (by omega)),
      setSlice_preserves_outside _ _ _ _ hv5 4 2 (Or.inl (by simp [le16_length])),
      setSlice_preserves_outside _ _ _ _ hv4 4 2 (Or.inl (by simp [le16_length]))]
    have := setSlice_read_self _ _ _ _ hv3
    rwa [le16_length] at this
  · rw [setSlice_preserves_outside _ _ _ _ hv8 6 2 (Or.inl (by omega)),
      setSlice_preserves_outside _ _ _ _ hv7 6 2 (Or.inl (by omega)),
      setSlice_preserves_outside _ _ _ _ hv6 6 2 (Or.inl (by omega)),
      setSlice_preserves_outside _ _ _ _ hv5 6 2 (Or.inl (by simp [le16_length]))]
    have := setSlice_read_self _ _ _ _ hv4
    rwa [le16_length] at this
  · rw [setSlice_preserves_outside _ _ _ _ hv8 8 2 (Or.inl (by omega)),
      setSlice_preserves_outside _ _ _ _ hv7 8 2 (Or.inl (by omega)),
      setSlice_preserves_outside _ _ _ _ hv6 8 2 (Or.inl (by omega))]
    have := setSlice_read_self _ _ _ _ hv5
    rwa [le16_length] at this
  · rw [setSlice_preserves_outside _ _ _ _ hv8 10 h.name.length (Or.inl (by omega)),
      setSlice_preserves_outside _ _ _ _ hv7 10 h.name.length (Or.inl (by omega))]
    exact setSlice_read_self _ _ _ _ hv6
  · rw [setSlice_preserves_outside _ _ _ _ hv8 (10 + h.name.length) 2 (Or.inl (by omega))]
    have := setSlice_read_self _ _ _ _ hv7
    rwa [le16_length] at this
  · exact setSlice_read_self _ _ _ _ hv8
  · rw [setSlice_drop_ge _ _ _ _ _ hv8 (by omega),
      setSlice_drop_ge _ _ _ _ _ hv7 (by rw [le16_length]; omega),
      setSlice_drop_ge _ _ _ _ _ hv6 (by omega),
      setSlice_drop_ge _ _ _ _ _ hv5 (by rw [le16_length]; omega),
      setSlice_drop_ge _ _ _ _ _ hv4 (by rw [le16_length]; omega),
      setSlice_drop_ge _ _ _ _ _ hv3 (by rw [le16_length]; omega),
      setSlice_drop_ge _ _ _ _ _ hv2 (by rw [le16_length]; omega),
      setSlice_drop_ge _ _ _ _ _ hv1 (by rw [le16_length]; omega),
      List.drop_replicate]

theorem listSlice_length_eq (l s : List Nat) (pos len : Nat)
    (h : listSlice l pos len = some s) : s.length = len := by
  unfold listSlice at h
  by_cases hc : pos + len ≤ l.length
  · rw [if_pos hc] at h
    cases h
    simp
    omega
  · rw [if_neg hc] at h
    cases h

theorem listSlice_mem (l s : List Nat) (pos len : Nat)
    (h : listSlice l pos len = some s) : ∀ b ∈ s, b ∈ l := by
  unfold listSlice at h
  by_cases hc : pos + len ≤ l.length
  · rw [if_pos hc] at h
    cases h
    intro b hb
    exact (List.drop_sublist pos l).mem ((List.take_sublist len (l.drop pos)).mem hb)
  · rw [if_neg hc] at h
    cases h

theorem two_slice_lt (vec : List Nat) (pos : Nat)
    (hbytes : vec.all (fun b => decide (b < 256)) = true)
    (hb : pos + 2 ≤ vec.length) :
    le16valL ((vec.drop pos).take 2) < 65536 := by
  have hs := listSlice_eq_some vec pos 2 hb
  have hlen := listSlice_length_eq vec _ pos 2 hs
  have hmem := listSlice_mem vec _ pos 2 hs
  obtain ⟨b0, b1, hshape⟩ := List.length_eq_two.mp hlen
  rw [hshape]
  have hb0 : b0 < 256 := by
    have := List.all_eq_true.mp hbytes b0 (hmem b0 (by rw [hshape]; simp))
    simpa using this
  have hb1 : b1 < 256 := by
    have := List.all_eq_true.mp hbytes b1 (hmem b1 (by rw [hshape]; simp))
    simpa using this
  simp only [le16valL]
  omega

theorem EncMethod.from_u16_ne (v : Nat) (h : v ≠ 1) : EncMethod.from_u16 v = none := by
  unfold EncMethod.from_u16
  match v, h with
  | 0, _ => rfl
  | 1, h => exact absurd rfl h
  | n + 2, _ => rfl

/-- Evaluation of `FileHeader::from_vec` on a buffer of the correct
length whose embedded length fields are in u16 range: every slice fetch
succeeds and the result is decided by the two UTF-8 checks and the
method tag. -/
theorem from_vec_eval (vec : List Nat)
    (hlen : vec.length = FILE_HEADER_SIZE)
    (hnl : headerNameLen vec ≤ 65535)
    (hpl : headerPathLen vec ≤ 65535) :
    FileHeader.from_vec vec =
      if validUtf8 (headerNameSlice vec) then
        if validUtf8 (headerPathSlice vec) then
          match EncMethod.from_u16 (headerEncVal vec) with
          | none => Except.error "Invalid encryption method"
          | some enc =>
              Except.ok
                { packed := le16valL ((vec.drop 0).take 2) != 0
                  file := le16valL ((vec.drop 2).take 2) != 0
                  version := le16valL ((vec.drop 4).take 2)
                  encryption := enc
                  name_len := headerNameLen vec
                  name := headerNameSlice vec
                  path_len := headerPathLen vec
                  path := headerPathSlice vec }
        else Except.error "Invalid UTF-8 in name"
      else Except.error "Invalid UTF-8 in name" := by
  have hFHS : FILE_HEADER_SIZE = 1048576 := rfl
  have hnlraw : le16valL ((vec.drop 8).take 2) ≤ 65535 := hnl
  have hplraw : le16valL ((vec.drop (10 + le16valL ((vec.drop 8).take 2))).take 2) ≤ 65535 := hpl
  have h0 := listSlice_eq_some vec 0 2 (by omega)
  have h2 := listSlice_eq_some vec 2 2 (by omega)
  have h4 := listSlice_eq_some vec 4 2 (by omega)
  have h6 := listSlice_eq_some vec 6 2 (by omega)
  have h8 := listSlice_eq_some vec 8 2 (by omega)
  have h10 := listSlice_eq_some vec 10 (le16valL ((vec.drop 8).take 2)) (by omega)
  have hpl2 := listSlice_eq_some vec (10 + le16valL ((vec.drop 8).take 2)) 2 (by omega)
  have hps := listSlice_eq_some vec (12 + le16valL ((vec.drop 8).take 2))
    (le16valL ((vec.drop (10 + le16valL ((vec.drop 8).take 2))).take 2)) (by omega)
  unfold FileHeader.from_vec
  rw [if_neg (by omega)]
  simp only [h0, h2, h4, h6, h8, h10, hpl2, hps]
  rfl

theorem listSlice_val (l s : List Nat) (pos len : Nat)
    (h : listSlice l pos len = some s) : (l.drop pos).take len = s := by
  unfold listSlice at h
  by_cases hc : pos + len ≤ l.length
  · rw [if_pos hc] at h
    cases h
    rfl
  · rw [if_neg hc] at h
    cases h

/-- Claim C6: for every header whose name and path fit inside the fixed
record width, `to_vec` produces a buffer of exactly FILE_HEADER_SIZE
bytes whose bytes past the last field are all zero, and `from_vec`
rejects every buffer whose length is not exactly FILE_HEADER_SIZE. -/
theorem C6_fixed_width (h : FileHeader)
    (hfit : 12 + h.name.length + h.path.length ≤ FILE_HEADER_SIZE)
    (vec : List Nat) (hbad : vec.length ≠ FILE_HEADER_SIZE) :
    (∃ v, FileHeader.to_vec h = some v ∧ v.length = FILE_HEADER_SIZE
        ∧ v.drop (12 + h.name.length + h.path.length)
            = List.replicate (FILE_HEADER_SIZE - (12 + h.name.length + h.path.length)) 0)
    ∧ FileHeader.from_vec vec = Except.error "Incorrect header" := by
  obtain ⟨v, hto, hlen, _, _, _, _, _, _, _, _, hdrop⟩ := to_vec_spec h hfit
  constructor
  · exact ⟨v, hto, hlen, hdrop⟩
  · unfold FileHeader.from_vec
    rw [if_pos hbad]

/-- Claim C6 witness: the theorem applied to a one-byte name and path and
the empty buffer. -/
theorem C6_fixed_width_witness :
    ((12 + ([97] : List Nat).length + ([98] : List Nat).length ≤ FILE_HEADER_SIZE)
      ∧ ([] : List Nat).length ≠ FILE_HEADER_SIZE)
    ∧ ((∃ v, FileHeader.to_vec
          (FileHeader.new false true 1 EncMethod.XChaCha20 [97] [98]) = some v
        ∧ v.length = FILE_HEADER_SIZE
        ∧ v.drop (12 + (FileHeader.new false true 1 EncMethod.XChaCha20 [97] [98]).name.length
            + (FileHeader.new false true 1 EncMethod.XChaCha20 [97] [98]).path.length)
            = List.replicate (FILE_HEADER_SIZE
              - (12 + (FileHeader.new false true 1 EncMethod.XChaCha20 [97] [98]).name.length
                + (FileHeader.new false true 1 EncMethod.XChaCha20 [97] [98]).path.length)) 0)
      ∧ FileHeader.from_vec [] = Except.error "Incorrect header") :=
  ⟨⟨by decide, by decide⟩,
    C6_fixed_width (FileHeader.new false true 1 EncMethod.XChaCha20 [97] [98])
      (by decide) [] (by decide)⟩

/-- Claim C7: `from_vec` succeeds exactly when the buffer has the fixed
width, the embedded name and path slices are valid UTF-8, and the
method tag equals 1 (it returns an error in every other case and never
panics, the model being total). -/
theorem C7_from_vec_characterization (vec : List Nat)
    (hbytes : vec.all (fun b => decide (b < 256)) = true) :
    (∃ fh, FileHeader.from_vec vec = Except.ok fh)
      ↔ (vec.length = FILE_HEADER_SIZE
          ∧ validUtf8 (headerNameSlice vec) = true
          ∧ validUtf8 (headerPathSlice vec) = true
          ∧ headerEncVal vec = 1) := by
  by_cases hlen : vec.length = FILE_HEADER_SIZE
  · have hFHS : FILE_HEADER_SIZE = 1048576 := rfl
    have hnl : headerNameLen vec ≤ 65535 := by
      show le16valL ((vec.drop 8).take 2) ≤ 65535
      have := two_slice_lt vec 8 hbytes (by omega)
      omega
    have hpl : headerPathLen vec ≤ 65535 := by
      show le16valL ((vec.drop (10 + headerNameLen vec)).take 2) ≤ 65535
      have := two_slice_lt vec (10 + headerNameLen vec) hbytes (by omega)
      omega
    rw [from_vec_eval vec hlen hnl hpl]
    constructor
    · rintro ⟨fh, hfh⟩
      by_cases hvn : validUtf8 (headerNameSlice vec) = true
      · by_cases hvp : validUtf8 (headerPathSlice vec) = true
        · by_cases he : headerEncVal vec = 1
          · exact ⟨hlen, hvn, hvp, he⟩
          · rw [hvn, hvp] at hfh
            simp only [if_true] at hfh
            rw [EncMethod.from_u16_ne _ he] at hfh
            cases hfh
        · rw [hvn] at hfh
          simp only [if_true] at hfh
          rw [if_neg (by simp [hvp])] at hfh
          cases hfh
      · rw [if_neg (by simp [hvn])] at hfh
        cases hfh
    · rintro ⟨_, hvn, hvp, he⟩
      rw [hvn, hvp, he]
      simp only [if_true]
      exact ⟨_, rfl⟩
  · constructor
    · rintro ⟨fh, hfh⟩
      unfold FileHeader.from_vec at hfh
      rw [if_pos hlen] at hfh
      cases hfh
    · rintro ⟨h1, _⟩
      exact absurd h1 hlen

/-- Claim C7 witness: the theorem applied to the all-zero buffer of the
fixed width (whose method tag 0 makes decoding fail, consistently with
the right-hand side being false). -/
theorem C7_from_vec_characterization_witness :
    ((List.replicate FILE_HEADER_SIZE 0).all (fun b => decide (b < 256)) = true)
    ∧ ((∃ fh, FileHeader.from_vec (List.replicate FILE_HEADER_SIZE 0) = Except.ok fh)
      ↔ ((List.replicate FILE_HEADER_SIZE 0).length = FILE_HEADER_SIZE
          ∧ validUtf8 (headerNameSlice (List.replicate FILE_HEADER_SIZE 0)) = true
          ∧ validUtf8 (headerPathSlice (List.replicate FILE_HEADER_SIZE 0)) = true
          ∧ headerEncVal (List.replicate FILE_HEADER_SIZE 0) = 1)) := by
  have hb : (List.replicate FILE_HEADER_SIZE 0).all (fun b => decide (b < 256)) = true := by
    rw [List.all_eq_true]
    intro b hbmem
    rw [List.eq_of_mem_replicate hbmem]
    decide
  exact ⟨hb, C7_from_vec_characterization (List.replicate FILE_HEADER_SIZE 0) hb⟩

theorem fileHeaderNew_name (packed file : Bool) (version : Nat) (enc : EncMethod)
    (name path : List Nat) :
    (FileHeader.new packed file version enc name path).name = name := rfl

theorem fileHeaderNew_name_len (packed file : Bool) (version : Nat) (enc : EncMethod)
    (name path : List Nat) :
    (FileHeader.new packed file version enc name path).name_len = name.length % 65536 := rfl

theorem to_vec_none_of_name_overflow (h : FileHeader)
    (hbig : ¬ (10 + h.name.length ≤ FILE_HEADER_SIZE)) :
    FileHeader.to_vec h = none := by
  have hFHS : FILE_HEADER_SIZE = 1048576 := rfl
  have hl0 : (List.replicate FILE_HEADER_SIZE 0 : List Nat).length = FILE_HEADER_SIZE := by
    simp
  obtain ⟨v1, hv1, hL1⟩ := setSlice_some_exists (List.replicate FILE_HEADER_SIZE 0)
    (le16 (if h.packed then 1 else 0)) 0 (by rw [le16_length, hl0]; omega)
  obtain ⟨v2, hv2, hL2⟩ := setSlice_some_exists v1
    (le16 (if h.file then 1 else 0)) 2 (by rw [le16_length, hL1, hl0]; omega)
  obtain ⟨v3, hv3, hL3⟩ := setSlice_some_exists v2
    (le16 (h.version % 65536)) 4 (by rw [le16_length, hL2, hL1, hl0]; omega)
  obtain ⟨v4, hv4, hL4⟩ := setSlice_some_exists v3
    (le16 h.encryption.toU16) 6 (by rw [le16_length, hL3, hL2, hL1, hl0]; omega)
  obtain ⟨v5, hv5, hL5⟩ := setSlice_some_exists v4
    (le16 (h.name.length % 65536)) 8 (by rw [le16_length, hL4, hL3, hL2, hL1, hl0]; omega)
  unfold FileHeader.to_vec
  rw [hv1, Option.some_bind, hv2, Option.some_bind, hv3, Option.some_bind,
    hv4, Option.some_bind, hv5, Option.some_bind]
  rw [setSlice_none v5 h.name 10 (by rw [hL5, hL4, hL3, hL2, hL1, hl0]; omega)]
  rfl

/-- Claim C8 (code_bug evidence): a header whose name alone fills the
fixed width makes `to_vec` panic (out-of-range slice copy, modelled as
`none`) instead of returning a RecordTooLarge-class error; moreover
`FileHeader::new` silently truncates the recorded length field mod
65536, so the recorded length differs from the stored byte count. -/
theorem C8_header_overflow_panics :
    FileHeader.to_vec (FileHeader.new false true ENCRYPTION_VERSION EncMethod.XChaCha20
      (List.replicate FILE_HEADER_SIZE 65) [97]) = none
    ∧ (FileHeader.new false true ENCRYPTION_VERSION EncMethod.XChaCha20
        (List.replicate FILE_HEADER_SIZE 65) [97]).name_len
      ≠ (FileHeader.new false true ENCRYPTION_VERSION EncMethod.XChaCha20
        (List.replicate FILE_HEADER_SIZE 65) [97]).name.length := by
  have hFHS : FILE_HEADER_SIZE = 1048576 := rfl
  constructor
  · apply to_vec_none_of_name_overflow
    rw [fileHeaderNew_name, List.length_replicate]
    omega
  · rw [fileHeaderNew_name_len, fileHeaderNew_name, List.length_replicate]
    omega

/-- Roundtrip of the header codec: decoding a successfully encoded header
recovers every field (the length fields normalised to the actual byte
counts, which `FileHeader::new` guarantees for in-range names/paths). -/
theorem from_vec_to_vec (h : FileHeader)
    (hnl : h.name.length ≤ 65535) (hplen : h.path.length ≤ 65535)
    (hpl : h.path_len = h.path.length)
    (hver : h.version ≤ 65535)
    (hvn : validUtf8 h.name = true) (hvp : validUtf8 h.path = true)
    (v : List Nat) (hv : FileHeader.to_vec h = some v) :
    FileHeader.from_vec v = Except.ok
      { packed := h.packed
        file := h.file
        version := h.version
        encryption := EncMethod.XChaCha20
        name_len := h.name.length
        name := h.name
        path_len := h.path.length
        path := h.path } := by
  have hFHS : FILE_HEADER_SIZE = 1048576 := rfl
  have hfit : 12 + h.name.length + h.path.length ≤ FILE_HEADER_SIZE := by omega
  obtain ⟨v2, hv2, hlen0, r0, r2, r4, r6, r8, rname, rplen, rpath, _⟩ := to_vec_spec h hfit
  rw [hv2] at hv
  have hveq := Option.some.inj hv
  subst hveq
  have hNL : headerNameLen v2 = h.name.length := by
    show le16valL ((v2.drop 8).take 2) = h.name.length
    rw [listSlice_val _ _ _ _ r8, le16valL_le16]
    omega
  have hPLfield : headerPathLen v2 = h.path.length := by
    show le16valL ((v2.drop (10 + headerNameLen v2)).take 2) = h.path.length
    rw [hNL, listSlice_val _ _ _ _ rplen, le16valL_le16]
    omega
  have hNS : headerNameSlice v2 = h.name := by
    show (v2.drop 10).take (headerNameLen v2) = h.name
    rw [hNL, listSlice_val _ _ _ _ rname]
  have hPS : headerPathSlice v2 = h.path := by
    show (v2.drop (12 + headerNameLen v2)).take (headerPathLen v2) = h.path
    rw [hNL, hPLfield, listSlice_val _ _ _ _ rpath]
  have hEnc : headerEncVal v2 = 1 := by
    show le16valL ((v2.drop 6).take 2) = 1
    rw [listSlice_val _ _ _ _ r6, le16valL_le16]
    cases h.encryption
    rfl
  have hP : (le16valL ((v2.drop 0).take 2) != 0) = h.packed := by
    rw [listSlice_val _ _ _ _ r0, le16valL_le16]
    cases h.packed <;> rfl
  have hF : (le16valL ((v2.drop 2).take 2) != 0) = h.file := by
    rw [listSlice_val _ _ _ _ r2, le16valL_le16]
    cases h.file <;> rfl
  have hV : le16valL ((v2.drop 4).take 2) = h.version := by
    rw [listSlice_val _ _ _ _ r4, le16valL_le16]
    omega
  rw [from_vec_eval v2 hlen0 (by rw [hNL]; exact hnl) (by rw [hPLfield]; exact hplen)]
  rw [hNS, hPS, hvn, hvp, hEnc]
  simp only [if_true]
  show Except.ok _ = Except.ok _
  rw [hP, hF, hV, hNL, hPLfield]

/- Lemmas about the encrypting writer. -/

theorem emit_eq (w : EncryptingWriter) :
    EncryptingWriter.emit w =
      { w with samples := w.samples ++
          (if w.hasSender then [progressVal w.totalBytesProcessed w.totalInputSize] else []) } := by
  unfold EncryptingWriter.emit
  by_cases hs : w.hasSender
  · rw [if_pos hs, if_pos hs]
  · rw [if_neg hs, if_neg hs]
    simp

theorem chunksOf_succ (ks : Nat → Nat) (pos q : Nat) (l : List Nat) :
    chunksOf ks pos (q + 1) l
      = applyKs ks pos (l.take CHUNK) :: chunksOf ks (pos + CHUNK) q (l.drop CHUNK) := rfl

theorem emitSeq_succ (hs : Bool) (t : Option Nat) (p q : Nat) :
    emitSeq hs t p (q + 1)
      = (if hs then [progressVal (p + CHUNK) t] else []) ++ emitSeq hs t (p + CHUNK) q := rfl

theorem writeLoop_eq (ks : Nat → Nat) (fuel : Nat) (w : EncryptingWriter)
    (hfuel : w.buffer.length ≤ fuel) :
    writeLoop ks fuel w =
      { inner := w.inner ++ chunksOf ks w.pos (w.buffer.length / CHUNK) w.buffer
        pos := w.pos + CHUNK * (w.buffer.length / CHUNK)
        buffer := w.buffer.drop (CHUNK * (w.buffer.length / CHUNK))
        hasSender := w.hasSender
        totalBytesProcessed := w.totalBytesProcessed + CHUNK * (w.buffer.length / CHUNK)
        totalInputSize := w.totalInputSize
        samples := w.samples ++ emitSeq w.hasSender w.totalInputSize
            w.totalBytesProcessed (w.buffer.length / CHUNK) } := by
  have hCH : CHUNK = 1048576 := rfl
  induction fuel generalizing w with
  | zero =>
    have h0 : w.buffer.length = 0 := by omega
    have hq : w.buffer.length / CHUNK = 0 := by rw [h0]; simp
    rw [hq]
    simp only [writeLoop, chunksOf, emitSeq, Nat.mul_zero, Nat.add_zero, List.drop_zero,
      List.append_nil]
  | succ fuel ih =>
    by_cases hc : CHUNK ≤ w.buffer.length
    · have hq : w.buffer.length / CHUNK = (w.buffer.length - CHUNK) / CHUNK + 1 :=
        Nat.div_eq_sub_div (by omega) hc
      rw [hq]
      simp only [writeLoop]
      rw [if_pos hc]
      rw [emit_eq]
      rw [ih _ (by simp; omega)]
      simp only [List.length_drop]
      rw [List.drop_drop]
      rw [chunksOf_succ, emitSeq_succ]
      congr 1
      all_goals first
        | rfl
        | simp [List.append_assoc]
        | ring
    · have hq : w.buffer.length / CHUNK = 0 := Nat.div_eq_of_lt (by omega)
      rw [hq]
      simp only [writeLoop]
      rw [if_neg hc]
      simp only [chunksOf, emitSeq, Nat.mul_zero, Nat.add_zero, List.drop_zero,
        List.append_nil]

theorem write_eq (ks : Nat → Nat) (w : EncryptingWriter) (buf : List Nat) :
    EncryptingWriter.write ks w buf =
      { inner := w.inner ++ chunksOf ks w.pos ((w.buffer ++ buf).length / CHUNK) (w.buffer ++ buf)
        pos := w.pos + CHUNK * ((w.buffer ++ buf).length / CHUNK)
        buffer := (w.buffer ++ buf).drop (CHUNK * ((w.buffer ++ buf).length / CHUNK))
        hasSender := w.hasSender
        totalBytesProcessed := w.totalBytesProcessed
          + CHUNK * ((w.buffer ++ buf).length / CHUNK)
        totalInputSize := w.totalInputSize
        samples := w.samples ++ emitSeq w.hasSender w.totalInputSize
            w.totalBytesProcessed ((w.buffer ++ buf).length / CHUNK) } := by
  unfold EncryptingWriter.write
  rw [writeLoop_eq ks _ _ (by simp)]

theorem flush_eq (ks : Nat → Nat) (w : EncryptingWriter) :
    EncryptingWriter.flush ks w =
      if w.buffer.isEmpty then w
      else
        { w with
          inner := w.inner ++ [applyKs ks w.pos w.buffer]
          buffer := []
          totalBytesProcessed := w.totalBytesProcessed + w.buffer.length
          samples := w.samples ++
            (if w.hasSender then
              [progressVal (w.totalBytesProcessed + w.buffer.length) w.totalInputSize]
             else []) } := by
  unfold EncryptingWriter.flush
  by_cases hb : w.buffer.isEmpty
  · rw [if_pos hb, if_pos hb]
  · rw [if_neg hb, if_neg hb, emit_eq]

theorem chunksOf_mem_length (ks : Nat → Nat) (q : Nat) :
    ∀ (pos : Nat) (l : List Nat), CHUNK * q ≤ l.length →
      ∀ c ∈ chunksOf ks pos q l, c.length = CHUNK := by
  induction q with
  | zero =>
    intro pos l _ c hc
    simp [chunksOf] at hc
  | succ q ih =>
    intro pos l hle c hc
    have hCH : CHUNK = 1048576 := rfl
    have hmul : CHUNK * (q + 1) = CHUNK * q + CHUNK := by ring
    rw [chunksOf_succ] at hc
    rcases List.mem_cons.mp hc with hhead | htail
    · rw [hhead, applyKs_length, List.length_take]
      omega
    · exact ih (pos + CHUNK) (l.drop CHUNK) (by simp; omega) c htail

theorem chunksOf_flatten (ks : Nat → Nat) (q : Nat) :
    ∀ (pos : Nat) (l : List Nat), CHUNK * q ≤ l.length →
      (chunksOf ks pos q l).flatten = applyKs ks pos (l.take (CHUNK * q)) := by
  induction q with
  | zero =>
    intro pos l _
    simp [chunksOf, applyKs]
  | succ q ih =>
    intro pos l hle
    have hCH : CHUNK = 1048576 := rfl
    have hmul : CHUNK * (q + 1) = CHUNK * q + CHUNK := by ring
    rw [chunksOf_succ]
    rw [List.flatten_cons]
    rw [ih (pos + CHUNK) (l.drop CHUNK) (by simp; omega)]
    have htk : (l.take CHUNK).length = CHUNK := by simp; omega
    have hsplit : l.take (CHUNK * (q + 1)) = l.take CHUNK ++ (l.drop CHUNK).take (CHUNK * q) := by
      rw [← List.take_add]
      congr 1
      ring
    rw [hsplit, applyKs_append, htk]

theorem chunksOf_append_stable (ks : Nat → Nat) (q : Nat) :
    ∀ (pos : Nat) (l extra : List Nat), CHUNK * q ≤ l.length →
      chunksOf ks pos q (l ++ extra) = chunksOf ks pos q l := by
  induction q with
  | zero =>
    intro pos l extra _
    rfl
  | succ q ih =>
    intro pos l extra hle
    have hCH : CHUNK = 1048576 := rfl
    have hmul : CHUNK * (q + 1) = CHUNK * q + CHUNK := by ring
    rw [chunksOf_succ, chunksOf_succ]
    have htk : (l ++ extra).take CHUNK = l.take CHUNK := by
      rw [List.take_append_eq_append_take]
      have : CHUNK - l.length = 0 := by omega
      rw [this]
      simp
    have hdr : (l ++ extra).drop CHUNK = l.drop CHUNK ++ extra := by
      rw [List.drop_append_eq_append_drop]
      have : CHUNK - l.length = 0 := by omega
      rw [this]
      have h2 : l.drop CHUNK ++ extra.drop 0 = l.drop CHUNK ++ extra := by simp
      rw [h2]
    rw [htk, hdr, ih (pos + CHUNK) (l.drop CHUNK) extra (by simp; omega)]

theorem chunksOf_add (ks : Nat → Nat) (q1 : Nat) :
    ∀ (q2 pos : Nat) (l : List Nat),
      chunksOf ks pos (q1 + q2) l
        = chunksOf ks pos q1 l
          ++ chunksOf ks (pos + CHUNK * q1) q2 (l.drop (CHUNK * q1)) := by
  induction q1 with
  | zero =>
    intro q2 pos l
    simp [chunksOf]
  | succ q1 ih =>
    intro q2 pos l
    have hshift : q1 + 1 + q2 = (q1 + q2) + 1 := by ring
    have e1 : pos + CHUNK * (q1 + 1) = pos + CHUNK + CHUNK * q1 := by ring
    have e2 : CHUNK * (q1 + 1) = CHUNK + CHUNK * q1 := by ring
    rw [hshift, chunksOf_succ, chunksOf_succ, ih q2 (pos + CHUNK) (l.drop CHUNK),
      List.cons_append, List.drop_drop, e1, e2]

theorem emitSeq_add (hs : Bool) (t : Option Nat) (q1 : Nat) :
    ∀ (q2 p : Nat),
      emitSeq hs t p (q1 + q2)
        = emitSeq hs t p q1 ++ emitSeq hs t (p + CHUNK * q1) q2 := by
  induction q1 with
  | zero =>
    intro q2 p
    simp [emitSeq]
  | succ q1 ih =>
    intro q2 p
    have hshift : q1 + 1 + q2 = (q1 + q2) + 1 := by ring
    have e1 : p + CHUNK * (q1 + 1) = p + CHUNK + CHUNK * q1 := by ring
    rw [hshift, emitSeq_succ, emitSeq_succ, ih q2 (p + CHUNK), List.append_assoc, e1]

/-- Splitting the written bytes across any sequence of write calls does
not change the writer state: two consecutive writes equal one write of
the concatenation.  This is the formal content of the chunk loop picking
up exactly where the previous call stopped. -/
theorem write_write (ks : Nat → Nat) (w : EncryptingWriter) (a b : List Nat) :
    EncryptingWriter.write ks (EncryptingWriter.write ks w a) b
      = EncryptingWriter.write ks w (a ++ b) := by
  have hCH : CHUNK = 1048576 := rfl
  rw [write_eq ks w a, write_eq, write_eq ks w (a ++ b)]
  dsimp only
  rw [← List.append_assoc w.buffer a b]
  have hq1le : CHUNK * ((w.buffer ++ a).length / CHUNK) ≤ (w.buffer ++ a).length := by
    rw [Nat.mul_comm]
    exact Nat.div_mul_le_self (w.buffer ++ a).length CHUNK
  have hqtot : ((w.buffer ++ a) ++ b).length / CHUNK
      = (w.buffer ++ a).length / CHUNK
        + ((w.buffer ++ a).drop (CHUNK * ((w.buffer ++ a).length / CHUNK)) ++ b).length
            / CHUNK := by
    simp only [List.length_append, List.length_drop]
    have hsplit : (w.buffer ++ a).length + b.length
        = CHUNK * ((w.buffer ++ a).length / CHUNK)
          + (((w.buffer ++ a).length - CHUNK * ((w.buffer ++ a).length / CHUNK))
            + b.length) := by
      have := hq1le
      simp only [List.length_append] at this
      omega
    simp only [List.length_append] at hsplit
    rw [hsplit, Nat.mul_add_div (by omega)]
  have hdropsplit : ((w.buffer ++ a) ++ b).drop (CHUNK * ((w.buffer ++ a).length / CHUNK))
      = (w.buffer ++ a).drop (CHUNK * ((w.buffer ++ a).length / CHUNK)) ++ b := by
    rw [List.drop_append_eq_append_drop]
    have hz : CHUNK * ((w.buffer ++ a).length / CHUNK) - (w.buffer ++ a).length = 0 := by
      omega
    rw [hz]
    simp
  rw [hqtot, chunksOf_add, emitSeq_add, Nat.mul_add, hdropsplit]
  rw [chunksOf_append_stable ks _ _ (w.buffer ++ a) b hq1le]
  congr 1
  case e_inner => rw [List.append_assoc]
  case e_pos => rw [Nat.add_assoc]
  case e_buffer => rw [← List.drop_drop, hdropsplit]
  case e_totalBytesProcessed => rw [Nat.add_assoc]
  case e_samples => rw [List.append_assoc]

theorem write_buffer_lt (ks : Nat → Nat) (w : EncryptingWriter) (buf : List Nat) :
    (EncryptingWriter.write ks w buf).buffer.length < CHUNK := by
  rw [write_eq]
  simp only [List.length_drop]
  have hCH : CHUNK = 1048576 := rfl
  have hml := Nat.mod_lt ((w.buffer ++ buf).length) (show 0 < CHUNK by omega)
  have hdm := Nat.div_add_mod (w.buffer ++ buf).length CHUNK
  omega

theorem write_nil (ks : Nat → Nat) (w : EncryptingWriter)
    (hw : w.buffer.length < CHUNK) : EncryptingWriter.write ks w [] = w := by
  rw [write_eq]
  have hq : (w.buffer ++ ([] : List Nat)).length / CHUNK = 0 := by
    rw [List.append_nil]
    exact Nat.div_eq_of_lt hw
  rw [hq]
  simp [chunksOf, emitSeq]

theorem ioCopyLoop_eq_write (ks : Nat → Nat) (fuel : Nat) :
    ∀ (w : EncryptingWriter) (src : List Nat), src.length < fuel →
      w.buffer.length < CHUNK →
      ioCopyLoop ks fuel w src = EncryptingWriter.write ks w src := by
  induction fuel with
  | zero =>
    intro w src h hb
    omega
  | succ fuel ih =>
    intro w src h hb
    have hD : DEFAULT_BUF_SIZE = 8192 := rfl
    simp only [ioCopyLoop]
    by_cases hs : src.isEmpty
    · rw [if_pos hs]
      have hnil : src = [] := List.isEmpty_iff.mp hs
      subst hnil
      rw [write_nil ks w hb]
    · rw [if_neg hs]
      have hne : src ≠ [] := fun hc => hs (by rw [hc]; rfl)
      have hpos : 0 < src.length := List.length_pos.mpr hne
      rw [ih (EncryptingWriter.write ks w (src.take DEFAULT_BUF_SIZE))
        (src.drop DEFAULT_BUF_SIZE) (by simp only [List.length_drop]; omega)
        (write_buffer_lt ks w (src.take DEFAULT_BUF_SIZE))]
      rw [write_write, List.take_append_drop]

/-- Modelled io::copy equals a single write of the whole source. -/
theorem ioCopy_eq_write (ks : Nat → Nat) (w : EncryptingWriter) (src : List Nat)
    (hb : w.buffer.length < CHUNK) :
    ioCopy ks w src = EncryptingWriter.write ks w src := by
  unfold ioCopy
  exact ioCopyLoop_eq_write ks (src.length + 1) w src (by omega) hb

theorem flush_buffer_nil (ks : Nat → Nat) (w : EncryptingWriter) :
    (EncryptingWriter.flush ks w).buffer = [] := by
  rw [flush_eq]
  by_cases hb : w.buffer.isEmpty
  · rw [if_pos hb]
    exact List.isEmpty_iff.mp hb
  · rw [if_neg hb]

theorem flush_inner (ks : Nat → Nat) (w : EncryptingWriter) :
    (EncryptingWriter.flush ks w).inner
      = w.inner ++ (if w.buffer.isEmpty then [] else [applyKs ks w.pos w.buffer]) := by
  rw [flush_eq]
  by_cases hb : w.buffer.isEmpty
  · rw [if_pos hb, if_pos hb]
    simp
  · rw [if_neg hb, if_neg hb]

/-- Claim C5: a write call appends the input to the buffer and then, for
exactly `q` = buffered-length / CHUNK times, cipher-transforms one
CHUNK-sized piece from the front of the buffer and writes it downstream,
leaving fewer than CHUNK bytes buffered; flush then writes the
cipher-transformed remainder downstream exactly once (no downstream call
when the remainder is empty) and clears the buffer. -/
theorem C5_writer_chunk_discipline (ks : Nat → Nat) (w : EncryptingWriter) (buf : List Nat) :
    ∃ q,
      (EncryptingWriter.write ks w buf).inner
          = w.inner ++ chunksOf ks w.pos q (w.buffer ++ buf)
      ∧ (∀ c ∈ (EncryptingWriter.write ks w buf).inner.drop w.inner.length,
          c.length = CHUNK)
      ∧ ((EncryptingWriter.write ks w buf).inner.drop w.inner.length).flatten
          = applyKs ks w.pos ((w.buffer ++ buf).take (CHUNK * q))
      ∧ (EncryptingWriter.write ks w buf).buffer = (w.buffer ++ buf).drop (CHUNK * q)
      ∧ (EncryptingWriter.write ks w buf).buffer.length < CHUNK
      ∧ (EncryptingWriter.flush ks (EncryptingWriter.write ks w buf)).buffer = []
      ∧ (EncryptingWriter.flush ks (EncryptingWriter.write ks w buf)).inner
          = (EncryptingWriter.write ks w buf).inner
            ++ (if (EncryptingWriter.write ks w buf).buffer.isEmpty then []
                else [applyKs ks (EncryptingWriter.write ks w buf).pos
                  (EncryptingWriter.write ks w buf).buffer]) := by
  refine ⟨(w.buffer ++ buf).length / CHUNK, ?_, ?_, ?_, ?_, ?_, ?_, ?_⟩
  · rw [write_eq]
  · rw [write_eq]
    dsimp only
    rw [List.drop_left]
    intro c hc
    refine chunksOf_mem_length ks _ w.pos (w.buffer ++ buf) ?_ c hc
    rw [Nat.mul_comm]
    exact Nat.div_mul_le_self (w.buffer ++ buf).length CHUNK
  · rw [write_eq]
    dsimp only
    rw [List.drop_left]
    refine chunksOf_flatten ks _ w.pos (w.buffer ++ buf) ?_
    rw [Nat.mul_comm]
    exact Nat.div_mul_le_self (w.buffer ++ buf).length CHUNK
  · rw [write_eq]
  · exact write_buffer_lt ks w buf
  · exact flush_buffer_nil ks (EncryptingWriter.write ks w buf)
  · exact flush_inner ks (EncryptingWriter.write ks w buf)

/-- Total bytes a clean-buffered writer sends downstream over a write of
`payload` followed by flush: exactly the keystream application to
`payload` starting at the writer cipher position, appended to what was
already written. -/
theorem write_flush_outBytes (ks : Nat → Nat) (w : EncryptingWriter) (payload : List Nat)
    (hbuf : w.buffer = []) :
    EncryptingWriter.outBytes (EncryptingWriter.flush ks (EncryptingWriter.write ks w payload))
      = EncryptingWriter.outBytes w ++ applyKs ks w.pos payload := by
  have hCH : CHUNK = 1048576 := rfl
  unfold EncryptingWriter.outBytes
  rw [flush_inner, write_eq]
  dsimp only
  rw [hbuf, List.nil_append]
  have hqle : CHUNK * (payload.length / CHUNK) ≤ payload.length := by
    rw [Nat.mul_comm]
    exact Nat.div_mul_le_self payload.length CHUNK
  rw [List.flatten_append, List.flatten_append]
  rw [chunksOf_flatten ks (payload.length / CHUNK) w.pos payload hqle]
  by_cases he : (payload.drop (CHUNK * (payload.length / CHUNK))).isEmpty
  · rw [if_pos he]
    have hdnil : payload.drop (CHUNK * (payload.length / CHUNK)) = [] :=
      List.isEmpty_iff.mp he
    have hlen : payload.length ≤ CHUNK * (payload.length / CHUNK) := by
      have := List.drop_eq_nil_iff.mp hdnil
      omega
    rw [List.take_of_length_le hlen]
    simp
  · rw [if_neg he]
    have htl : (payload.take (CHUNK * (payload.length / CHUNK))).length
        = CHUNK * (payload.length / CHUNK) := by
      simp
      omega
    rw [List.flatten_cons, List.flatten_nil, List.append_nil]
    conv_rhs => rw [← List.take_append_drop (CHUNK * (payload.length / CHUNK)) payload]
    rw [applyKs_append, htl, List.append_assoc]

/- Lemmas about the decrypting reader. -/

theorem reader_emit_fields (r : DecryptingReader) :
    (DecryptingReader.emit r).inner = r.inner
    ∧ (DecryptingReader.emit r).buffer = r.buffer
    ∧ (DecryptingReader.emit r).pos = r.pos
    ∧ (DecryptingReader.emit r).cpos = r.cpos
    ∧ (DecryptingReader.emit r).hasSender = r.hasSender
    ∧ (DecryptingReader.emit r).totalBytesProcessed = r.totalBytesProcessed
    ∧ (DecryptingReader.emit r).totalInputSize = r.totalInputSize := by
  unfold DecryptingReader.emit
  by_cases hs : r.hasSender
  · rw [if_pos hs]
    exact ⟨rfl, rfl, rfl, rfl, rfl, rfl, rfl⟩
  · rw [if_neg hs]
    exact ⟨rfl, rfl, rfl, rfl, rfl, rfl, rfl⟩

theorem reader_emit_eq (r : DecryptingReader) :
    DecryptingReader.emit r =
      { r with samples := r.samples ++
          (if r.hasSender then [progressVal r.totalBytesProcessed r.totalInputSize]
           else []) } := by
  unfold DecryptingReader.emit
  by_cases hs : r.hasSender
  · rw [if_pos hs, if_pos hs]
  · rw [if_neg hs, if_neg hs]
    simp

theorem read_spec (ks : Nat → Nat) (r : DecryptingReader) (len : Nat)
    (hpos : r.pos ≤ r.buffer.length) :
    ∃ m,
      (DecryptingReader.read ks r len).1 = (DecryptingReader.avail ks r).take m
      ∧ DecryptingReader.avail ks (DecryptingReader.read ks r len).2
          = (DecryptingReader.avail ks r).drop m
      ∧ m ≤ len
      ∧ m ≤ (DecryptingReader.avail ks r).length
      ∧ (m = 0 ↔ len = 0 ∨ DecryptingReader.avail ks r = [])
      ∧ (DecryptingReader.read ks r len).2.pos
          ≤ (DecryptingReader.read ks r len).2.buffer.length
      ∧ (DecryptingReader.read ks r len).2.hasSender = r.hasSender
      ∧ (DecryptingReader.read ks r len).2.totalInputSize = r.totalInputSize
      ∧ (DecryptingReader.read ks r len).2.totalBytesProcessed
          + (DecryptingReader.read ks r len).2.inner.length
        = r.totalBytesProcessed + r.inner.length := by
  have hCH : CHUNK = 1048576 := rfl
  unfold DecryptingReader.read
  by_cases hb : r.pos = r.buffer.length
  · rw [if_pos hb]
    by_cases hn : min CHUNK r.inner.length = 0
    · rw [if_pos hn]
      refine ⟨0, by simp, by simp, by omega, by omega, ?_, hpos, rfl, rfl, rfl⟩
      have hinner : r.inner = [] := by
        have : r.inner.length = 0 := by omega
        exact List.length_eq_zero.mp this
      constructor
      · intro _
        right
        unfold DecryptingReader.avail
        rw [hinner, hb]
        simp [applyKs]
      · intro _
        rfl
    · rw [if_neg hn]
      rw [reader_emit_eq]
      unfold DecryptingReader.serve
      dsimp only
      have hnle : min CHUNK r.inner.length ≤ r.inner.length := Nat.min_le_right _ _
      have hBlen : (applyKs ks r.cpos (r.inner.take (min CHUNK r.inner.length))).length
          = min CHUNK r.inner.length := by
        rw [applyKs_length, List.length_take]
        omega
      have havail : DecryptingReader.avail ks r = applyKs ks r.cpos r.inner := by
        unfold DecryptingReader.avail
        rw [hb, List.drop_length, List.nil_append]
      have hsplit : applyKs ks r.cpos r.inner
          = applyKs ks r.cpos (r.inner.take (min CHUNK r.inner.length))
            ++ applyKs ks (r.cpos + min CHUNK r.inner.length)
                (r.inner.drop (min CHUNK r.inner.length)) := by
        conv_lhs => rw [← List.take_append_drop (min CHUNK r.inner.length) r.inner]
        rw [applyKs_append, List.length_take]
        congr 2
        omega
      refine ⟨min len (min CHUNK r.inner.length), ?_, ?_, ?_, ?_, ?_, ?_, rfl, rfl, ?_⟩
      · rw [havail, hsplit, List.drop_zero, hBlen, Nat.sub_zero,
          List.take_append_eq_append_take]
        have hz : min len (min CHUNK r.inner.length)
            - (applyKs ks r.cpos (r.inner.take (min CHUNK r.inner.length))).length = 0 := by
          rw [hBlen]
          omega
        rw [hz]
        simp
      · unfold DecryptingReader.avail
        dsimp only
        rw [hb, List.drop_length, List.nil_append, hsplit,
          List.drop_append_eq_append_drop]
        simp only [Nat.zero_add, Nat.sub_zero, hBlen]
        have hz : min len (min CHUNK r.inner.length) - min CHUNK r.inner.length = 0 := by
          omega
        rw [hz]
        simp
      · omega
      · rw [havail, applyKs_length]
        omega
      · constructor
        · intro hm
          left
          omega
        · intro hcase
          rcases hcase with hl | hav
          · omega
          · rw [havail] at hav
            have : r.inner.length = 0 := by
              have := congrArg List.length hav
              rw [applyKs_length] at this
              simpa using this
            omega
      · dsimp only
        rw [hBlen]
        omega
      · dsimp only
        simp only [List.length_drop]
        omega
  · rw [if_neg hb]
    unfold DecryptingReader.serve
    dsimp only
    have hlt : r.pos < r.buffer.length := by omega
    have hdlen : (r.buffer.drop r.pos).length = r.buffer.length - r.pos := by simp
    refine ⟨min len (r.buffer.length - r.pos), ?_, ?_, ?_, ?_, ?_, ?_, rfl, rfl, rfl⟩
    · unfold DecryptingReader.avail
      rw [List.take_append_eq_append_take]
      have hz : min len (r.buffer.length - r.pos) - (r.buffer.drop r.pos).length = 0 := by
        rw [hdlen]
        omega
      rw [hz]
      simp only [List.take_zero, List.append_nil]
    · unfold DecryptingReader.avail
      dsimp only
      rw [List.drop_append_eq_append_drop]
      have hz : min len (r.buffer.length - r.pos) - (r.buffer.drop r.pos).length = 0 := by
        rw [hdlen]
        omega
      rw [hz]
      simp only [List.drop_zero]
      congr 1
      rw [List.drop_drop]
    · omega
    · unfold DecryptingReader.avail
      simp only [List.length_append, List.length_drop]
      omega
    · constructor
      · intro hm
        left
        omega
      · intro hcase
        rcases hcase with hl | hav
        · omega
        · exfalso
          unfold DecryptingReader.avail at hav
          have := congrArg List.length hav
          simp only [List.length_append, List.length_drop, applyKs_length,
            List.length_nil] at this
          omega
    · dsimp only
      omega

theorem readExactLoop_spec (ks : Nat → Nat) (fuel : Nat) :
    ∀ (r : DecryptingReader) (need : Nat) (acc : List Nat),
      r.pos ≤ r.buffer.length →
      need ≤ (DecryptingReader.avail ks r).length →
      need < fuel →
      ∃ r1, readExactLoop ks fuel r need acc
          = Except.ok (acc ++ (DecryptingReader.avail ks r).take need, r1)
        ∧ DecryptingReader.avail ks r1 = (DecryptingReader.avail ks r).drop need
        ∧ r1.pos ≤ r1.buffer.length
        ∧ r1.hasSender = r.hasSender
        ∧ r1.totalInputSize = r.totalInputSize
        ∧ r1.totalBytesProcessed + r1.inner.length
            = r.totalBytesProcessed + r.inner.length := by
  induction fuel with
  | zero =>
    intro r need acc _ _ h
    omega
  | succ fuel ih =>
    intro r need acc hpos hneed hfuel
    simp only [readExactLoop]
    by_cases h0 : need = 0
    · rw [if_pos h0]
      subst h0
      exact ⟨r, by simp, by simp, hpos, rfl, rfl, rfl⟩
    · rw [if_neg h0]
      obtain ⟨m, hgot, havail2, hmlen, hmav, hmz, hpos2, hs2, ht2, hp2⟩ :=
        read_spec ks r need hpos
      have havne : DecryptingReader.avail ks r ≠ [] := by
        intro hc
        rw [hc] at hneed
        simp at hneed
        omega
      have hm0 : m ≠ 0 := by
        intro hc
        rcases hmz.mp hc with h | h
        · exact h0 h
        · exact havne h
      have hgotlen : (DecryptingReader.read ks r need).1.length = m := by
        rw [hgot, List.length_take]
        omega
      have hgotne : ¬ ((DecryptingReader.read ks r need).1.isEmpty = true) := by
        intro hc
        have := List.isEmpty_iff.mp hc
        rw [this] at hgotlen
        simp at hgotlen
        omega
      rw [if_neg hgotne]
      obtain ⟨r1, hrec, havail1, hpos1, hs1, ht1, hp1⟩ :=
        ih (DecryptingReader.read ks r need).2 (need - m)
          (acc ++ (DecryptingReader.read ks r need).1)
          hpos2
          (by rw [havail2, List.length_drop]; omega)
          (by omega)
      rw [hgotlen, hrec]
      refine ⟨r1, ?_, ?_, hpos1, by rw [hs1, hs2], by rw [ht1, ht2], by omega⟩
      · congr 2
        rw [hgot, havail2, List.append_assoc]
        congr 1
        rw [← List.take_add]
        congr 1
        omega
      · rw [havail1, havail2, List.drop_drop]
        congr 1
        omega

theorem drainLoop_spec (ks : Nat → Nat) (fuel : Nat) :
    ∀ (r : DecryptingReader) (acc : List Nat),
      r.pos ≤ r.buffer.length →
      (DecryptingReader.avail ks r).length < fuel →
      ∃ r1, drainLoop ks fuel r acc = (acc ++ DecryptingReader.avail ks r, r1)
        ∧ DecryptingReader.avail ks r1 = []
        ∧ r1.hasSender = r.hasSender
        ∧ r1.totalInputSize = r.totalInputSize
        ∧ r1.totalBytesProcessed + r1.inner.length
            = r.totalBytesProcessed + r.inner.length := by
  induction fuel with
  | zero =>
    intro r acc _ h
    omega
  | succ fuel ih =>
    intro r acc hpos hfuel
    simp only [drainLoop]
    have hD : DEFAULT_BUF_SIZE = 8192 := rfl
    obtain ⟨m, hgot, havail2, hmlen, hmav, hmz, hpos2, hs2, ht2, hp2⟩ :=
      read_spec ks r DEFAULT_BUF_SIZE hpos
    by_cases hge : (DecryptingReader.read ks r DEFAULT_BUF_SIZE).1.isEmpty
    · rw [if_pos hge]
      have hgnil : (DecryptingReader.read ks r DEFAULT_BUF_SIZE).1 = [] :=
        List.isEmpty_iff.mp hge
      have hm0 : m = 0 := by
        have h2 := congrArg List.length hgnil
        rw [hgot, List.length_take, List.length_nil] at h2
        omega
      have havnil : DecryptingReader.avail ks r = [] := by
        rcases hmz.mp hm0 with h | h
        · omega
        · exact h
      refine ⟨(DecryptingReader.read ks r DEFAULT_BUF_SIZE).2, ?_, ?_, hs2, ht2, by omega⟩
      · rw [havnil]
        simp
      · rw [havail2, havnil]
        simp
    · rw [if_neg hge]
      have hgne : (DecryptingReader.read ks r DEFAULT_BUF_SIZE).1 ≠ [] := by
        intro hc
        exact hge (by rw [hc]; rfl)
      have hm0 : m ≠ 0 := by
        intro hc
        rw [hc] at hgot
        simp at hgot
        exact hgne hgot
      have hgotlen : (DecryptingReader.read ks r DEFAULT_BUF_SIZE).1.length = m := by
        rw [hgot, List.length_take]
        omega
      obtain ⟨r1, hrec, havail1, hs1, ht1, hp1⟩ :=
        ih (DecryptingReader.read ks r DEFAULT_BUF_SIZE).2
          (acc ++ (DecryptingReader.read ks r DEFAULT_BUF_SIZE).1)
          hpos2
          (by rw [havail2, List.length_drop]; omega)
      rw [hrec]
      refine ⟨r1, ?_, havail1, by rw [hs1, hs2], by rw [ht1, ht2], by omega⟩
      congr 1
      rw [hgot, havail2, List.append_assoc]
      congr 1
      exact List.take_append_drop m (DecryptingReader.avail ks r)

/-- Draining the reader yields exactly its remaining decrypted bytes. -/
theorem drainAll_spec (ks : Nat → Nat) (r : DecryptingReader)
    (hpos : r.pos ≤ r.buffer.length) :
    ∃ r1, drainAll ks r = (DecryptingReader.avail ks r, r1)
      ∧ DecryptingReader.avail ks r1 = []
      ∧ r1.hasSender = r.hasSender
      ∧ r1.totalInputSize = r.totalInputSize
      ∧ r1.totalBytesProcessed + r1.inner.length
          = r.totalBytesProcessed + r.inner.length := by
  unfold drainAll
  have hb : (DecryptingReader.avail ks r).length < r.inner.length + r.buffer.length + 1 := by
    unfold DecryptingReader.avail
    simp only [List.length_append, List.length_drop, applyKs_length]
    omega
  obtain ⟨r1, hdr, h2, h3, h4, h5⟩ := drainLoop_spec ks _ r [] hpos hb
  rw [hdr]
  exact ⟨r1, by simp, h2, h3, h4, h5⟩

/- Salt-line parsing lemmas. -/

theorem isValidSalt_parts (salt : List Nat) (hv : isValidSalt salt = true) :
    4 ≤ salt.length ∧ salt.length ≤ 64 ∧ ∀ b ∈ salt, isB64Char b = true := by
  unfold isValidSalt at hv
  simp only [Bool.and_eq_true, decide_eq_true_eq, List.all_eq_true] at hv
  exact ⟨hv.1.1, hv.1.2, hv.2⟩

theorem isB64Char_not_ws (b : Nat) (h : isB64Char b = true) : isAsciiWs b = false := by
  unfold isB64Char at h
  unfold isAsciiWs
  simp only [Bool.or_eq_true, Bool.and_eq_true, decide_eq_true_eq, beq_iff_eq] at h
  simp only [Bool.or_eq_false_iff, beq_eq_false_iff_ne]
  omega

theorem isB64Char_ne_newline (b : Nat) (h : isB64Char b = true) : (b == 10) = false := by
  unfold isB64Char at h
  simp only [Bool.or_eq_true, Bool.and_eq_true, decide_eq_true_eq, beq_iff_eq] at h
  simp only [beq_eq_false_iff_ne]
  omega

theorem readLineBytes_spec (salt : List Nat) (rest : List Nat)
    (h : ∀ b ∈ salt, (b == 10) = false) :
    readLineBytes (salt ++ 10 :: rest) = (salt ++ [10], rest) := by
  induction salt with
  | nil =>
    simp [readLineBytes]
  | cons c cs ih =>
    have hc : (c == 10) = false := h c (by simp)
    have hih := ih (fun b hb => h b (by simp [hb]))
    simp only [List.cons_append, readLineBytes, hc, List.append_eq]
    simp [hih]

theorem trim_salt_line (salt : List Nat) (hv : isValidSalt salt = true) :
    trimBytes (salt ++ [10]) = salt := by
  obtain ⟨hlen, _, hchars⟩ := isValidSalt_parts salt hv
  have hnws : ∀ b ∈ salt, isAsciiWs b = false := fun b hb =>
    isB64Char_not_ws b (hchars b hb)
  unfold trimBytes
  have hfront : (salt ++ [10]).dropWhile isAsciiWs = salt ++ [10] := by
    cases salt with
    | nil => simp at hlen
    | cons c cs =>
      rw [List.cons_append, List.dropWhile_cons_of_neg]
      rw [hnws c (by simp)]
      simp
  rw [hfront]
  rw [List.reverse_append]
  simp only [List.reverse_singleton, List.singleton_append]
  rw [List.dropWhile_cons_of_pos (by rfl)]
  have hback : salt.reverse.dropWhile isAsciiWs = salt.reverse := by
    cases hrev : salt.reverse with
    | nil => rfl
    | cons d ds =>
      rw [List.dropWhile_cons_of_neg]
      have hd : d ∈ salt := by
        rw [← List.mem_reverse, hrev]
        simp
      rw [hnws d hd]
      simp
  rw [hback, List.reverse_reverse]

/- Orchestrator lemmas. -/

/-- Evaluation of a successful encrypt_file: the container is the salt
line, the nonce, then ONE continuous keystream application to the
concatenation of the serialized header and the payload (the header was
encrypted directly by the cipher, the payload chunk-by-chunk by the
writer that inherited the same cipher position); the samples are those
of the chunk loop followed by the flush sample. -/
theorem encrypt_ok (ksOf : List Nat → List Nat → List Nat → Nat → Nat)
    (kind : FileDir) (fileName inputPathStr payload : List Nat)
    (password salt nonce : List Nat) (fileSize : Nat) (progressAttached : Bool)
    (hnl : fileName.length ≤ 65535) (hpl : inputPathStr.length ≤ 65535) :
    ∃ hv encRes,
      FileHeader.to_vec (FileHeader.new (encryptHeaderFlags kind).1
          (encryptHeaderFlags kind).2 ENCRYPTION_VERSION EncMethod.XChaCha20
          fileName inputPathStr) = some hv
      ∧ hv.length = FILE_HEADER_SIZE
      ∧ encryptFileModel ksOf kind fileName inputPathStr payload password salt nonce
          fileSize progressAttached = Except.ok encRes
      ∧ encRes.container
          = salt ++ [10] ++ nonce ++ applyKs (ksOf password salt nonce) 0 (hv ++ payload)
      ∧ encRes.samples
          = emitSeq progressAttached (some fileSize) 0 (payload.length / CHUNK)
            ++ (if (payload.drop (CHUNK * (payload.length / CHUNK))).isEmpty then []
                else if progressAttached then
                  [progressVal payload.length (some fileSize)]
                else []) := by
  have hFHS : FILE_HEADER_SIZE = 1048576 := rfl
  have hCH : CHUNK = 1048576 := rfl
  have hfit : 12 + fileName.length + inputPathStr.length ≤ FILE_HEADER_SIZE := by omega
  obtain ⟨hv, hto, hlen, _⟩ := to_vec_spec (FileHeader.new (encryptHeaderFlags kind).1
    (encryptHeaderFlags kind).2 ENCRYPTION_VERSION EncMethod.XChaCha20
    fileName inputPathStr) (by
      rw [fileHeaderNew_name]
      have hp : (FileHeader.new (encryptHeaderFlags kind).1 (encryptHeaderFlags kind).2
          ENCRYPTION_VERSION EncMethod.XChaCha20 fileName inputPathStr).path
          = inputPathStr := rfl
      rw [hp]
      omega)
  refine ⟨hv,
    ⟨salt ++ [10] ++ nonce ++ applyKs (ksOf password salt nonce) 0 (hv ++ payload),
      emitSeq progressAttached (some fileSize) 0 (payload.length / CHUNK)
        ++ (if (payload.drop (CHUNK * (payload.length / CHUNK))).isEmpty then []
            else if progressAttached then [progressVal payload.length (some fileSize)]
            else [])⟩,
    hto, hlen, ?_, rfl, rfl⟩
  unfold encryptFileModel
  rw [hto]
  simp only [Option.elim]
  rw [ioCopy_eq_write _ _ _ (by simp [EncryptingWriter.new]; omega)]
  refine congrArg Except.ok ?_
  simp only [EncResult.mk.injEq]
  refine ⟨?_, ?_⟩
  · rw [write_flush_outBytes _ _ _ rfl]
    show salt ++ [10] ++ nonce ++ applyKs (ksOf password salt nonce) 0 hv
        ++ ([] ++ applyKs (ksOf password salt nonce) hv.length payload)
      = salt ++ [10] ++ nonce ++ applyKs (ksOf password salt nonce) 0 (hv ++ payload)
    rw [List.nil_append, applyKs_append]
    simp only [Nat.zero_add, List.append_assoc]
  · rw [flush_eq, write_eq]
    dsimp only [EncryptingWriter.new]
    simp only [List.nil_append]
    by_cases hrem : (payload.drop (CHUNK * (payload.length / CHUNK))).isEmpty
    · rw [if_pos hrem, if_pos hrem]
      simp
    · rw [if_neg hrem, if_neg hrem]
      dsimp only
      have hq : CHUNK * (payload.length / CHUNK) ≤ payload.length := by
        rw [Nat.mul_comm]
        exact Nat.div_mul_le_self payload.length CHUNK
      have harg : 0 + CHUNK * (payload.length / CHUNK)
          + (payload.drop (CHUNK * (payload.length / CHUNK))).length
          = payload.length := by
        simp only [List.length_drop]
        omega
      rw [harg]

/- Decrypt-side orchestrator lemmas. -/

theorem exceptElim_ok {A B : Type} (a : A) (f : String → B) (g : A → B) :
    exceptElim (Except.ok a) f g = g a := rfl

theorem exceptElim_error {A B : Type} (s : String) (f : String → B) (g : A → B) :
    exceptElim (Except.error s) f g = f s := rfl

theorem avail_new (ks : Nat → Nat) (s : List Nat) :
    DecryptingReader.avail ks (DecryptingReader.new s) = applyKs ks 0 s := by
  simp [DecryptingReader.avail, DecryptingReader.new]

/-- Evaluation of a successful decrypt_file on a well-formed container:
the salt line is parsed back, the nonce is recovered, the fixed-width
header block is decrypted and decoded, and draining the reader recovers
exactly the original payload. -/
theorem decrypt_ok (ksOf : List Nat → List Nat → List Nat → Nat → Nat)
    (password salt nonce hv payload : List Nat)
    (file_h : FileHeader) (progressAttached : Bool)
    (hsalt : isValidSalt salt = true)
    (hnonce : nonce.length = NONCE_SIZE)
    (hhlen : hv.length = FILE_HEADER_SIZE)
    (hfv : FileHeader.from_vec hv = Except.ok file_h) :
    ∃ res, decryptFileModel ksOf
        (salt ++ [10] ++ nonce ++ applyKs (ksOf password salt nonce) 0 (hv ++ payload))
        password progressAttached = Except.ok res
      ∧ res.header = file_h
      ∧ res.headerBytes = hv
      ∧ res.payload = payload := by
  have hN : NONCE_SIZE = 24 := rfl
  obtain ⟨hge4, hle64, hchars⟩ := isValidSalt_parts salt hsalt
  have hnl10 : ∀ b ∈ salt, (b == 10) = false := fun b hb =>
    isB64Char_ne_newline b (hchars b hb)
  have harg : salt ++ [10] ++ nonce ++ applyKs (ksOf password salt nonce) 0 (hv ++ payload)
      = salt ++ 10 :: (nonce ++ applyKs (ksOf password salt nonce) 0 (hv ++ payload)) := by
    simp
  have hline : readLineBytes (salt ++ [10] ++ nonce
        ++ applyKs (ksOf password salt nonce) 0 (hv ++ payload))
      = (salt ++ [10], nonce ++ applyKs (ksOf password salt nonce) 0 (hv ++ payload)) := by
    rw [harg]
    exact readLineBytes_spec salt _ hnl10
  unfold decryptFileModel
  rw [hline]
  dsimp only
  rw [trim_salt_line salt hsalt, hsalt]
  simp only [Bool.not_true, Bool.false_eq_true, if_false]
  rw [if_neg (by rw [List.length_append, hnonce]; omega)]
  rw [List.take_left' hnonce, List.drop_left' hnonce]
  have hravail : DecryptingReader.avail (ksOf password salt nonce)
      (DecryptingReader.new (applyKs (ksOf password salt nonce) 0 (hv ++ payload)))
      = hv ++ payload := by
    rw [avail_new, applyKs_applyKs]
  obtain ⟨r1, hok, havail1, hpos1, hs1, ht1, hp1⟩ :=
    readExactLoop_spec (ksOf password salt nonce) (FILE_HEADER_SIZE + 1)
      (DecryptingReader.new (applyKs (ksOf password salt nonce) 0 (hv ++ payload)))
      FILE_HEADER_SIZE []
      (by simp [DecryptingReader.new])
      (by rw [hravail, List.length_append, hhlen]; omega)
      (by omega)
  have hre : readExact (ksOf password salt nonce)
      (DecryptingReader.new (applyKs (ksOf password salt nonce) 0 (hv ++ payload)))
      FILE_HEADER_SIZE = Except.ok (hv, r1) := by
    unfold readExact
    rw [hok, hravail, List.take_left' hhlen, List.nil_append]
  rw [hre, exceptElim_ok]
  dsimp only
  rw [hfv, exceptElim_ok]
  have havail1' : DecryptingReader.avail (ksOf password salt nonce) r1 = payload := by
    rw [havail1, hravail, List.drop_left' hhlen]
  by_cases hpa : progressAttached = true
  · rw [if_pos hpa]
    obtain ⟨rf, hd, _, _, _, _⟩ := drainAll_spec (ksOf password salt nonce)
      { r1 with
        hasSender := true
        totalInputSize := some (salt ++ [10] ++ nonce
          ++ applyKs (ksOf password salt nonce) 0 (hv ++ payload)).length }
      hpos1
    rw [hd]
    have havail2 : DecryptingReader.avail (ksOf password salt nonce)
        { r1 with
          hasSender := true
          totalInputSize := some (salt ++ [10] ++ nonce
            ++ applyKs (ksOf password salt nonce) 0 (hv ++ payload)).length }
        = payload := havail1'
    rw [havail2]
    exact ⟨_, rfl, rfl, rfl, rfl⟩
  · rw [if_neg hpa]
    obtain ⟨rf, hd, _, _, _, _⟩ := drainAll_spec (ksOf password salt nonce) r1 hpos1
    rw [hd, havail1']
    exact ⟨_, rfl, rfl, rfl, rfl⟩

/-- Claim C1: decrypting the container produced by encrypt_file with the
same password (hence the same derived keystream) succeeds and reproduces
the original payload bytes exactly, together with the header metadata —
the name, the original path, and the packed flag that selects the
directory-reconstruction strategy — for both input kinds. -/
theorem C1_roundtrip (ksOf : List Nat → List Nat → List Nat → Nat → Nat)
    (kind : FileDir) (fileName inputPathStr payload password salt nonce : List Nat)
    (fileSize : Nat) (progressEnc progressDec : Bool)
    (hnl : fileName.length ≤ 65535) (hpl : inputPathStr.length ≤ 65535)
    (hvn : validUtf8 fileName = true) (hvp : validUtf8 inputPathStr = true)
    (hsalt : isValidSalt salt = true) (hnonce : nonce.length = NONCE_SIZE) :
    ∃ encRes decRes,
      encryptFileModel ksOf kind fileName inputPathStr payload password salt nonce
        fileSize progressEnc = Except.ok encRes
      ∧ decryptFileModel ksOf encRes.container password progressDec = Except.ok decRes
      ∧ decRes.payload = payload
      ∧ decRes.header.name = fileName
      ∧ decRes.header.path = inputPathStr
      ∧ decRes.header.packed = (encryptHeaderFlags kind).1 := by
  obtain ⟨hv, encRes, hto, hlen, henc, hcont, hsamp⟩ :=
    encrypt_ok ksOf kind fileName inputPathStr payload password salt nonce
      fileSize progressEnc hnl hpl
  have hfv := from_vec_to_vec
    (FileHeader.new (encryptHeaderFlags kind).1 (encryptHeaderFlags kind).2
      ENCRYPTION_VERSION EncMethod.XChaCha20 fileName inputPathStr)
    hnl hpl (Nat.mod_eq_of_lt (by omega))
    (by show ENCRYPTION_VERSION ≤ 65535; decide) hvn hvp hv hto
  obtain ⟨decRes, hdec, hh, hhb, hp⟩ :=
    decrypt_ok ksOf password salt nonce hv payload _ progressDec hsalt hnonce hlen hfv
  refine ⟨encRes, decRes, henc, ?_, hp, ?_, ?_, ?_⟩
  · rw [hcont]
    exact hdec
  · rw [hh]
    rfl
  · rw [hh]
    rfl
  · rw [hh]
    rfl

/-- Claim C1 witness: the round trip at a concrete single-file input. -/
theorem C1_roundtrip_witness :
    (([97] : List Nat).length ≤ 65535 ∧ validUtf8 [97] = true
      ∧ isValidSalt [65, 65, 65, 65] = true
      ∧ (List.replicate 24 0).length = NONCE_SIZE)
    ∧ ∃ encRes decRes,
      encryptFileModel (fun _ _ _ _ => 0) FileDir.File [97] [97] [1, 2, 3] []
        [65, 65, 65, 65] (List.replicate 24 0) 3 true = Except.ok encRes
      ∧ decryptFileModel (fun _ _ _ _ => 0) encRes.container [] true = Except.ok decRes
      ∧ decRes.payload = [1, 2, 3]
      ∧ decRes.header.name = [97]
      ∧ decRes.header.path = [97]
      ∧ decRes.header.packed = (encryptHeaderFlags FileDir.File).1 :=
  ⟨⟨by decide, by decide, by decide, by decide⟩,
    C1_roundtrip (fun _ _ _ _ => 0) FileDir.File [97] [97] [1, 2, 3] []
      [65, 65, 65, 65] (List.replicate 24 0) 3 true true (by decide) (by decide)
      (by decide) (by decide) (by decide) (by decide)⟩

/-- Claim C2: one continuous keystream covers the serialized header and
the payload.  On the encrypt side the container's encrypted region is the
header transform at position 0 followed by the payload transform starting
at position `hv.length`, and that split equals a single keystream
application over the concatenation; on the decrypt side the recovered
header bytes and payload are exactly that single continuous application
inverted. -/
theorem C2_continuous_keystream (ksOf : List Nat → List Nat → List Nat → Nat → Nat)
    (kind : FileDir) (fileName inputPathStr payload password salt nonce : List Nat)
    (fileSize : Nat) (progressEnc progressDec : Bool)
    (hnl : fileName.length ≤ 65535) (hpl : inputPathStr.length ≤ 65535)
    (hvn : validUtf8 fileName = true) (hvp : validUtf8 inputPathStr = true)
    (hsalt : isValidSalt salt = true) (hnonce : nonce.length = NONCE_SIZE) :
    ∃ hv encRes decRes,
      FileHeader.to_vec (FileHeader.new (encryptHeaderFlags kind).1
        (encryptHeaderFlags kind).2 ENCRYPTION_VERSION EncMethod.XChaCha20
        fileName inputPathStr) = some hv
      ∧ encryptFileModel ksOf kind fileName inputPathStr payload password salt nonce
          fileSize progressEnc = Except.ok encRes
      ∧ encRes.container
          = salt ++ [10] ++ nonce
            ++ (applyKs (ksOf password salt nonce) 0 hv
                ++ applyKs (ksOf password salt nonce) hv.length payload)
      ∧ applyKs (ksOf password salt nonce) 0 hv
          ++ applyKs (ksOf password salt nonce) hv.length payload
        = applyKs (ksOf password salt nonce) 0 (hv ++ payload)
      ∧ decryptFileModel ksOf encRes.container password progressDec = Except.ok decRes
      ∧ decRes.headerBytes ++ decRes.payload
          = applyKs (ksOf password salt nonce) 0
              (applyKs (ksOf password salt nonce) 0 (hv ++ payload)) := by
  obtain ⟨hv, encRes, hto, hlen, henc, hcont, hsamp⟩ :=
    encrypt_ok ksOf kind fileName inputPathStr payload password salt nonce
      fileSize progressEnc hnl hpl
  have hsplit : applyKs (ksOf password salt nonce) 0 (hv ++ payload)
      = applyKs (ksOf password salt nonce) 0 hv
        ++ applyKs (ksOf password salt nonce) hv.length payload := by
    rw [applyKs_append, Nat.zero_add]
  have hfv := from_vec_to_vec
    (FileHeader.new (encryptHeaderFlags kind).1 (encryptHeaderFlags kind).2
      ENCRYPTION_VERSION EncMethod.XChaCha20 fileName inputPathStr)
    hnl hpl (Nat.mod_eq_of_lt (by omega))
    (by show ENCRYPTION_VERSION ≤ 65535; decide) hvn hvp hv hto
  obtain ⟨decRes, hdec, hh, hhb, hp⟩ :=
    decrypt_ok ksOf password salt nonce hv payload _ progressDec hsalt hnonce hlen hfv
  refine ⟨hv, encRes, decRes, hto, henc, ?_, hsplit.symm, ?_, ?_⟩
  · rw [hcont, hsplit]
  · rw [hcont]
    exact hdec
  · rw [hhb, hp, applyKs_applyKs]

/-- Claim C2 witness: the continuous-keystream equation at a concrete
input with a position-dependent keystream. -/
theorem C2_continuous_keystream_witness :
    (([97] : List Nat).length ≤ 65535 ∧ validUtf8 [97] = true
      ∧ isValidSalt [66, 66, 66, 66] = true
      ∧ (List.replicate 24 1).length = NONCE_SIZE)
    ∧ ∃ hv encRes decRes,
      FileHeader.to_vec (FileHeader.new (encryptHeaderFlags FileDir.Directory).1
        (encryptHeaderFlags FileDir.Directory).2 ENCRYPTION_VERSION
        EncMethod.XChaCha20 [97] [97]) = some hv
      ∧ encryptFileModel (fun _ _ _ p => p % 256) FileDir.Directory [97] [97]
          [5, 6] [] [66, 66, 66, 66] (List.replicate 24 1) 2 false = Except.ok encRes
      ∧ encRes.container
          = [66, 66, 66, 66] ++ [10] ++ List.replicate 24 1
            ++ (applyKs (fun p => p % 256) 0 hv
                ++ applyKs (fun p => p % 256) hv.length [5, 6])
      ∧ applyKs (fun p => p % 256) 0 hv
          ++ applyKs (fun p => p % 256) hv.length [5, 6]
        = applyKs (fun p => p % 256) 0 (hv ++ [5, 6])
      ∧ decryptFileModel (fun _ _ _ p => p % 256) encRes.container [] false
          = Except.ok decRes
      ∧ decRes.headerBytes ++ decRes.payload
          = applyKs (fun p => p % 256) 0
              (applyKs (fun p => p % 256) 0 (hv ++ [5, 6])) :=
  ⟨⟨by decide, by decide, by decide, by decide⟩,
    C2_continuous_keystream (fun _ _ _ p => p % 256) FileDir.Directory [97] [97]
      [5, 6] [] [66, 66, 66, 66] (List.replicate 24 1) 2 false false (by decide)
      (by decide) (by decide) (by decide) (by decide) (by decide)⟩

/- Progress-sample lemmas (claim C9). -/

theorem progressVal_mono (a b t : Nat) (h : a ≤ b) :
    progressVal a (some t) ≤ progressVal b (some t) := by
  simp only [progressVal]
  exact div_le_div_of_nonneg_right (by exact_mod_cast h) (by positivity)

theorem progressVal_self (t : Nat) (h : 0 < t) : progressVal t (some t) = 1 := by
  simp only [progressVal]
  exact div_self (by positivity)

theorem progressVal_lt_one (a t : Nat) (h : a < t) : progressVal a (some t) < 1 := by
  simp only [progressVal]
  rw [div_lt_one (by exact_mod_cast Nat.pos_of_ne_zero (by omega))]
  exact_mod_cast h

theorem getLast?_cons_of_ne {A : Type} (a : A) (l : List A) (h : l ≠ []) :
    (a :: l).getLast? = l.getLast? := by
  cases l with
  | nil => exact absurd rfl h
  | cons b m => rfl

/-- The chunk-loop samples with a sender attached are chained
non-decreasing, bounded below by the first emission and above by the
emission at the end of the covered range. -/
theorem emitSeq_mono (t : Nat) :
    ∀ (q p : Nat), p + CHUNK * q ≤ t →
      List.Chain' (· ≤ ·) (emitSeq true (some t) p q)
      ∧ ∀ x ∈ emitSeq true (some t) p q,
          progressVal (p + CHUNK) (some t) ≤ x
          ∧ x ≤ progressVal (p + CHUNK * q) (some t) := by
  intro q
  induction q with
  | zero =>
    intro p _
    refine ⟨List.chain'_nil, ?_⟩
    intro x hx
    exact absurd hx (List.not_mem_nil x)
  | succ q ih =>
    intro p hle
    have hmul : CHUNK * (q + 1) = CHUNK * q + CHUNK := by ring
    obtain ⟨ihc, ihb⟩ := ih (p + CHUNK) (by omega)
    rw [emitSeq_succ, if_pos rfl, List.singleton_append]
    constructor
    · rw [List.chain'_cons']
      refine ⟨?_, ihc⟩
      intro y hy
      have hymem := List.mem_of_mem_head? hy
      exact le_trans (progressVal_mono _ _ t (by omega)) (ihb y hymem).1
    · intro x hx
      rcases List.mem_cons.mp hx with hxe | hxm
      · subst hxe
        exact ⟨le_refl _, progressVal_mono _ _ t (by omega)⟩
      · obtain ⟨hlo, hhi⟩ := ihb x hxm
        refine ⟨le_trans (progressVal_mono _ _ t (by omega)) hlo, ?_⟩
        calc x ≤ progressVal (p + CHUNK + CHUNK * q) (some t) := hhi
          _ = progressVal (p + CHUNK * (q + 1)) (some t) := by
              rw [show p + CHUNK + CHUNK * q = p + CHUNK * (q + 1) by ring]

/-- The last chunk-loop sample covers the whole range walked. -/
theorem emitSeq_getLast (t : Option Nat) :
    ∀ (q p : Nat), 0 < q →
      (emitSeq true t p q).getLast? = some (progressVal (p + CHUNK * q) t) := by
  intro q
  induction q with
  | zero =>
    intro p h
    omega
  | succ q ih =>
    intro p _
    rw [emitSeq_succ, if_pos rfl, List.singleton_append]
    rcases Nat.eq_zero_or_pos q with hq | hq
    · subst hq
      rw [show emitSeq true t (p + CHUNK) 0 = [] from rfl]
      rw [show p + CHUNK * 1 = p + CHUNK by ring]
      rfl
    · have hrec := ih (p + CHUNK) hq
      have hne : emitSeq true t (p + CHUNK) q ≠ [] := by
        intro hc
        rw [hc] at hrec
        exact Option.noConfusion hrec
      rw [getLast?_cons_of_ne _ _ hne, hrec]
      rw [show p + CHUNK + CHUNK * q = p + CHUNK * (q + 1) by ring]

/-- Encrypt-side progress behaviour: with a listener attached and the
total input size equal to the payload length, the samples of a
successful encrypt run are non-decreasing and the last one is exactly 1. -/
theorem encrypt_progress (ksOf : List Nat → List Nat → List Nat → Nat → Nat)
    (kind : FileDir) (fileName inputPathStr payload password salt nonce : List Nat)
    (hnl : fileName.length ≤ 65535) (hpl : inputPathStr.length ≤ 65535) :
    ∃ encRes,
      encryptFileModel ksOf kind fileName inputPathStr payload password salt nonce
        payload.length true = Except.ok encRes
      ∧ List.Chain' (· ≤ ·) encRes.samples
      ∧ (0 < payload.length → encRes.samples.getLast? = some 1)
      ∧ (payload.length = 0 → encRes.samples = []) := by
  obtain ⟨hv, encRes, hto, hlen, henc, hcont, hsamp⟩ :=
    encrypt_ok ksOf kind fileName inputPathStr payload password salt nonce
      payload.length true hnl hpl
  have hCH : CHUNK = 1048576 := rfl
  have hqle : CHUNK * (payload.length / CHUNK) ≤ payload.length := by
    rw [Nat.mul_comm]
    exact Nat.div_mul_le_self _ _
  refine ⟨encRes, henc, ?_, ?_, ?_⟩
  · rw [hsamp]
    by_cases hrem : (payload.drop (CHUNK * (payload.length / CHUNK))).isEmpty
    · rw [if_pos hrem, List.append_nil]
      exact (emitSeq_mono payload.length (payload.length / CHUNK) 0 (by omega)).1
    · rw [if_neg hrem, if_pos rfl, List.chain'_append]
      refine ⟨(emitSeq_mono payload.length (payload.length / CHUNK) 0 (by omega)).1,
        List.chain'_singleton _, ?_⟩
      intro x hx y hy
      have hxm := List.mem_of_mem_getLast? hx
      have hxb := ((emitSeq_mono payload.length (payload.length / CHUNK) 0
        (by omega)).2 x hxm).2
      have hy1 := List.mem_of_mem_head? hy
      have hy2 : y = progressVal payload.length (some payload.length) := by
        rcases List.mem_singleton.mp hy1 with h
        exact h
      rw [hy2]
      exact le_trans hxb (progressVal_mono _ _ _ (by omega))
  · intro hp0
    rw [hsamp]
    by_cases hrem : (payload.drop (CHUNK * (payload.length / CHUNK))).isEmpty
    · rw [if_pos hrem, List.append_nil]
      have hl := List.isEmpty_iff.mp hrem
      have hlen0 := congrArg List.length hl
      rw [List.length_drop, List.length_nil] at hlen0
      have hPeq : payload.length = CHUNK * (payload.length / CHUNK) := by omega
      have hq0 : 0 < payload.length / CHUNK := by
        rcases Nat.eq_zero_or_pos (payload.length / CHUNK) with h0 | h0
        · rw [h0, Nat.mul_zero] at hPeq
          omega
        · exact h0
      rw [emitSeq_getLast (some payload.length) (payload.length / CHUNK) 0 hq0]
      rw [Nat.zero_add, ← hPeq, progressVal_self _ hp0]
    · rw [if_neg hrem, if_pos rfl, List.getLast?_concat, progressVal_self _ hp0]
  · intro h0
    rw [hsamp, h0, Nat.zero_div]
    have hpl0 : payload = [] := List.length_eq_zero.mp h0
    rw [hpl0]
    rw [if_pos (by rfl : (List.drop (CHUNK * 0) ([] : List Nat)).isEmpty = true)]
    rw [show emitSeq true (some 0) 0 0 = [] from rfl, List.append_nil]

/- Step-level evaluation equations for the decrypting reader (claim C9). -/

theorem serve_eq (r : DecryptingReader) (len : Nat) :
    DecryptingReader.serve r len
      = ((r.buffer.drop r.pos).take (min len (r.buffer.length - r.pos)),
         { r with pos := r.pos + min len (r.buffer.length - r.pos) }) := rfl

theorem read_eval_refill (ks : Nat → Nat) (r : DecryptingReader) (len : Nat)
    (hpos : r.pos = r.buffer.length) (hn : ¬ min CHUNK r.inner.length = 0) :
    DecryptingReader.read ks r len
      = DecryptingReader.serve (DecryptingReader.emit
          { r with
            inner := r.inner.drop (min CHUNK r.inner.length)
            buffer := applyKs ks r.cpos (r.inner.take (min CHUNK r.inner.length))
            pos := 0
            cpos := r.cpos + min CHUNK r.inner.length
            totalBytesProcessed := r.totalBytesProcessed + min CHUNK r.inner.length })
          len := by
  unfold DecryptingReader.read
  rw [if_pos hpos, if_neg hn]

theorem read_eval_empty (ks : Nat → Nat) (r : DecryptingReader) (len : Nat)
    (hpos : r.pos = r.buffer.length) (hn : min CHUNK r.inner.length = 0) :
    DecryptingReader.read ks r len = ([], r) := by
  unfold DecryptingReader.read
  rw [if_pos hpos, if_pos hn]

theorem drainAll_eq (ks : Nat → Nat) (r : DecryptingReader) :
    drainAll ks r = drainLoop ks (r.inner.length + r.buffer.length + 1) r [] := rfl

theorem drainLoop_succ_eq (ks : Nat → Nat) (fuel : Nat) (r : DecryptingReader)
    (acc : List Nat) :
    drainLoop ks (fuel + 1) r acc
      = if (DecryptingReader.read ks r DEFAULT_BUF_SIZE).1.isEmpty
        then (acc, (DecryptingReader.read ks r DEFAULT_BUF_SIZE).2)
        else drainLoop ks fuel (DecryptingReader.read ks r DEFAULT_BUF_SIZE).2
            (acc ++ (DecryptingReader.read ks r DEFAULT_BUF_SIZE).1) := rfl

theorem readExactLoop_succ_eq (ks : Nat → Nat) (fuel : Nat) (r : DecryptingReader)
    (need : Nat) (acc : List Nat) :
    readExactLoop ks (fuel + 1) r need acc
      = if need = 0 then Except.ok (acc, r)
        else if (DecryptingReader.read ks r need).1.isEmpty
          then Except.error "failed to fill whole buffer"
          else readExactLoop ks fuel (DecryptingReader.read ks r need).2
              (need - (DecryptingReader.read ks r need).1.length)
              (acc ++ (DecryptingReader.read ks r need).1) := rfl

theorem read_eval_serve (ks : Nat → Nat) (r : DecryptingReader) (len : Nat)
    (h : ¬ r.pos = r.buffer.length) :
    DecryptingReader.read ks r len = DecryptingReader.serve r len := by
  unfold DecryptingReader.read
  rw [if_neg h]

/-- Samples emitted over a whole drain with a sender attached: one sample
per refill, i.e. the chunk-loop emission sequence over the remaining
underlying stream followed by one final partial-refill sample when the
stream length is not a chunk multiple. -/
theorem drainLoop_samples (ks : Nat → Nat) :
    ∀ (fuel : Nat) (r : DecryptingReader) (acc : List Nat),
      r.pos ≤ r.buffer.length →
      r.hasSender = true →
      r.inner.length + (r.buffer.length - r.pos) < fuel →
      (drainLoop ks fuel r acc).2.samples
        = r.samples
          ++ emitSeq true r.totalInputSize r.totalBytesProcessed
              (r.inner.length / CHUNK)
          ++ (if r.inner.length % CHUNK = 0 then []
              else [progressVal (r.totalBytesProcessed + r.inner.length)
                r.totalInputSize]) := by
  intro fuel
  induction fuel with
  | zero =>
    intro r acc _ _ hf
    omega
  | succ fuel ih =>
    intro r acc hpos hs hf
    have hC : CHUNK = 1048576 := rfl
    have hD : DEFAULT_BUF_SIZE = 8192 := rfl
    rw [drainLoop_succ_eq]
    by_cases hb : r.pos = r.buffer.length
    · by_cases hn : r.inner.length = 0
      · rw [read_eval_empty ks r DEFAULT_BUF_SIZE hb (by omega)]
        rw [if_pos (by rfl : ([] : List Nat).isEmpty = true)]
        rw [hn, Nat.zero_div, Nat.zero_mod, if_pos rfl]
        show r.samples
          = r.samples ++ emitSeq true r.totalInputSize r.totalBytesProcessed 0 ++ []
        rw [show emitSeq true r.totalInputSize r.totalBytesProcessed 0 = [] from rfl]
        rw [List.append_nil, List.append_nil]
      · rw [read_eval_refill ks r DEFAULT_BUF_SIZE hb (by omega)]
        rw [reader_emit_eq]
        dsimp only
        rw [hs, if_pos rfl]
        rw [serve_eq]
        dsimp only
        have hAlen : (applyKs ks r.cpos
            (r.inner.take (min CHUNK r.inner.length))).length
            = min CHUNK r.inner.length := by
          rw [applyKs_length, List.length_take]
          omega
        rw [hAlen, Nat.sub_zero, List.drop_zero]
        rw [if_neg (by
          intro hc
          have hg := congrArg List.length (List.isEmpty_iff.mp hc)
          rw [List.length_take, hAlen, List.length_nil] at hg
          omega)]
        refine (ih _ _ ?_ ?_ ?_).trans ?_
        · dsimp only
          rw [hAlen]
          omega
        · rfl
        · dsimp only
          rw [List.length_drop, hAlen]
          omega
        · dsimp only
          rw [List.length_drop]
          by_cases hcn : CHUNK ≤ r.inner.length
          · rw [Nat.min_eq_left hcn]
            rw [Nat.div_eq_sub_div (by omega) hcn, Nat.mod_eq_sub_mod hcn]
            rw [emitSeq_succ, if_pos rfl]
            rw [show r.totalBytesProcessed + CHUNK + (r.inner.length - CHUNK)
                = r.totalBytesProcessed + r.inner.length from by omega]
            simp only [List.append_assoc, List.singleton_append]
          · have hnC : r.inner.length ≤ CHUNK := by omega
            rw [Nat.min_eq_right hnC]
            rw [Nat.sub_self, Nat.zero_div, Nat.zero_mod, if_pos rfl]
            rw [Nat.div_eq_of_lt (by omega), Nat.mod_eq_of_lt (by omega)]
            rw [if_neg hn]
            rw [show emitSeq true r.totalInputSize
                (r.totalBytesProcessed + r.inner.length) 0 = [] from rfl]
            rw [show emitSeq true r.totalInputSize r.totalBytesProcessed 0 = []
                from rfl]
            simp
    · have hlt : r.pos < r.buffer.length := lt_of_le_of_ne hpos hb
      rw [read_eval_serve ks r DEFAULT_BUF_SIZE hb, serve_eq]
      rw [if_neg (by
        intro hc
        have hg := congrArg List.length (List.isEmpty_iff.mp hc)
        rw [List.length_take, List.length_drop, List.length_nil] at hg
        omega)]
      refine (ih _ _ ?_ ?_ ?_).trans ?_
      · dsimp only
        omega
      · exact hs
      · dsimp only
        omega
      · dsimp only

/-- When a single read already delivers all requested bytes, `read_exact`
is that one read. -/
theorem readExact_single (ks : Nat → Nat) (r : DecryptingReader) (need : Nat)
    (h0 : 0 < need)
    (hlen : (DecryptingReader.read ks r need).1.length = need) :
    readExact ks r need
      = Except.ok ((DecryptingReader.read ks r need).1,
                   (DecryptingReader.read ks r need).2) := by
  unfold readExact
  rw [readExactLoop_succ_eq, if_neg (by omega)]
  have hne : ¬ (DecryptingReader.read ks r need).1.isEmpty = true := by
    intro hc
    have := List.isEmpty_iff.mp hc
    rw [this] at hlen
    rw [List.length_nil] at hlen
    omega
  rw [if_neg hne, hlen, Nat.sub_self]
  obtain ⟨m, hm⟩ : ∃ m, need = m + 1 := ⟨need - 1, by omega⟩
  rw [hm, readExactLoop_succ_eq, if_pos rfl, List.nil_append]

/-- Decrypt-side progress behaviour on a well-formed container whose
payload fits in one downstream read: the drain emits exactly one sample,
whose denominator is the full container length (salt line and nonce
included) while the numerator counts only the bytes pulled through the
reader (header plus payload). -/
theorem decrypt_progress_run (ksOf : List Nat → List Nat → List Nat → Nat → Nat)
    (password salt nonce hv payload : List Nat) (file_h : FileHeader)
    (hsalt : isValidSalt salt = true)
    (hnonce : nonce.length = NONCE_SIZE)
    (hhlen : hv.length = FILE_HEADER_SIZE)
    (hfv : FileHeader.from_vec hv = Except.ok file_h) :
    ∃ res, decryptFileModel ksOf
        (salt ++ [10] ++ nonce ++ applyKs (ksOf password salt nonce) 0 (hv ++ payload))
        password true = Except.ok res
      ∧ res.payload = payload
      ∧ res.samples
          = emitSeq true
              (some (salt.length + 1 + NONCE_SIZE + FILE_HEADER_SIZE + payload.length))
              FILE_HEADER_SIZE (payload.length / CHUNK)
            ++ (if payload.length % CHUNK = 0 then []
                else [progressVal (FILE_HEADER_SIZE + payload.length)
                  (some (salt.length + 1 + NONCE_SIZE + FILE_HEADER_SIZE
                    + payload.length))]) := by
  have hC : CHUNK = 1048576 := rfl
  have hF : FILE_HEADER_SIZE = 1048576 := rfl
  have hD : DEFAULT_BUF_SIZE = 8192 := rfl
  have hN : NONCE_SIZE = 24 := rfl
  obtain ⟨hge4, hle64, hchars⟩ := isValidSalt_parts salt hsalt
  have hnl10 : ∀ b ∈ salt, (b == 10) = false := fun b hb =>
    isB64Char_ne_newline b (hchars b hb)
  have harg : salt ++ [10] ++ nonce
        ++ applyKs (ksOf password salt nonce) 0 (hv ++ payload)
      = salt ++ 10 :: (nonce ++ applyKs (ksOf password salt nonce) 0 (hv ++ payload)) := by
    simp
  have hline : readLineBytes (salt ++ [10] ++ nonce
        ++ applyKs (ksOf password salt nonce) 0 (hv ++ payload))
      = (salt ++ [10], nonce ++ applyKs (ksOf password salt nonce) 0 (hv ++ payload)) := by
    rw [harg]
    exact readLineBytes_spec salt _ hnl10
  unfold decryptFileModel
  rw [hline]
  dsimp only
  rw [trim_salt_line salt hsalt, hsalt]
  simp only [Bool.not_true, Bool.false_eq_true, if_false]
  rw [if_neg (by rw [List.length_append, hnonce]; omega)]
  rw [List.take_left' hnonce, List.drop_left' hnonce]
  have hT : (salt ++ [10] ++ nonce
      ++ applyKs (ksOf password salt nonce) 0 (hv ++ payload)).length
      = salt.length + 1 + NONCE_SIZE + FILE_HEADER_SIZE + payload.length := by
    simp only [List.length_append, applyKs_length, List.length_cons,
      List.length_nil, List.length_singleton, hnonce, hhlen]
    omega
  rw [hT]
  have hsplitE : applyKs (ksOf password salt nonce) 0 (hv ++ payload)
      = applyKs (ksOf password salt nonce) 0 hv
        ++ applyKs (ksOf password salt nonce) FILE_HEADER_SIZE payload := by
    rw [applyKs_append, Nat.zero_add, hhlen]
  rw [hsplitE]
  have hE1len : (applyKs (ksOf password salt nonce) 0 hv).length = FILE_HEADER_SIZE := by
    rw [applyKs_length, hhlen]
  have hE2len : (applyKs (ksOf password salt nonce) FILE_HEADER_SIZE payload).length
      = payload.length := applyKs_length _ _ _
  have hr1 : DecryptingReader.read (ksOf password salt nonce)
      (DecryptingReader.new (applyKs (ksOf password salt nonce) 0 hv
        ++ applyKs (ksOf password salt nonce) FILE_HEADER_SIZE payload))
      FILE_HEADER_SIZE
      = (hv,
         { inner := applyKs (ksOf password salt nonce) FILE_HEADER_SIZE payload
           buffer := hv
           pos := FILE_HEADER_SIZE
           cpos := FILE_HEADER_SIZE
           hasSender := false
           totalBytesProcessed := FILE_HEADER_SIZE
           totalInputSize := none
           samples := [] }) := by
    rw [read_eval_refill _ _ _ (by rfl)
      (by dsimp only [DecryptingReader.new]
          rw [List.length_append, hE1len, hE2len]
          omega)]
    dsimp only [DecryptingReader.new]
    have hminH : min CHUNK (applyKs (ksOf password salt nonce) 0 hv
        ++ applyKs (ksOf password salt nonce) FILE_HEADER_SIZE payload).length
        = FILE_HEADER_SIZE := by
      rw [List.length_append, hE1len, hE2len]
      omega
    rw [hminH]
    rw [List.take_left' hE1len, List.drop_left' hE1len, applyKs_applyKs, Nat.zero_add]
    rw [reader_emit_eq]
    dsimp only
    simp only [Bool.false_eq_true, if_false, List.append_nil]
    rw [serve_eq]
    dsimp only
    rw [Nat.sub_zero]
    have hminB : min FILE_HEADER_SIZE hv.length = FILE_HEADER_SIZE := by omega
    rw [hminB, List.drop_zero, List.take_of_length_le (le_of_eq hhlen), Nat.zero_add]
  have hreadlen : (DecryptingReader.read (ksOf password salt nonce)
      (DecryptingReader.new (applyKs (ksOf password salt nonce) 0 hv
        ++ applyKs (ksOf password salt nonce) FILE_HEADER_SIZE payload))
      FILE_HEADER_SIZE).1.length = FILE_HEADER_SIZE := by
    rw [hr1]
    exact hhlen
  rw [readExact_single _ _ _ (by omega) hreadlen, hr1]
  dsimp only
  rw [exceptElim_ok]
  dsimp only
  rw [hfv, exceptElim_ok]
  rw [if_pos True.intro]
  have hsam : (drainAll (ksOf password salt nonce)
      { inner := applyKs (ksOf password salt nonce) FILE_HEADER_SIZE payload
        buffer := hv
        pos := FILE_HEADER_SIZE
        cpos := FILE_HEADER_SIZE
        hasSender := true
        totalBytesProcessed := FILE_HEADER_SIZE
        totalInputSize := some (salt.length + 1 + NONCE_SIZE + FILE_HEADER_SIZE
          + payload.length)
        samples := [] }).2.samples
      = emitSeq true
          (some (salt.length + 1 + NONCE_SIZE + FILE_HEADER_SIZE + payload.length))
          FILE_HEADER_SIZE (payload.length / CHUNK)
        ++ (if payload.length % CHUNK = 0 then []
            else [progressVal (FILE_HEADER_SIZE + payload.length)
              (some (salt.length + 1 + NONCE_SIZE + FILE_HEADER_SIZE
                + payload.length))]) := by
    rw [drainAll_eq]
    refine (drainLoop_samples (ksOf password salt nonce) _ _ [] ?_ rfl ?_).trans ?_
    · dsimp only
      omega
    · dsimp only
      omega
    · dsimp only
      rw [hE2len, List.nil_append]
  have havail : DecryptingReader.avail (ksOf password salt nonce)
      { inner := applyKs (ksOf password salt nonce) FILE_HEADER_SIZE payload
        buffer := hv
        pos := FILE_HEADER_SIZE
        cpos := FILE_HEADER_SIZE
        hasSender := true
        totalBytesProcessed := FILE_HEADER_SIZE
        totalInputSize := some (salt.length + 1 + NONCE_SIZE + FILE_HEADER_SIZE
          + payload.length)
        samples := [] } = payload := by
    unfold DecryptingReader.avail
    dsimp only
    rw [List.drop_eq_nil_of_le (le_of_eq hhlen), applyKs_applyKs, List.nil_append]
  obtain ⟨rf, hdeq, _, _, _, _⟩ := drainAll_spec (ksOf password salt nonce)
    { inner := applyKs (ksOf password salt nonce) FILE_HEADER_SIZE payload
      buffer := hv
      pos := FILE_HEADER_SIZE
      cpos := FILE_HEADER_SIZE
      hasSender := true
      totalBytesProcessed := FILE_HEADER_SIZE
      totalInputSize := some (salt.length + 1 + NONCE_SIZE + FILE_HEADER_SIZE
        + payload.length)
      samples := [] } (by dsimp only; omega)
  rw [hsam, hdeq, havail]
  exact ⟨_, rfl, rfl, rfl⟩
/-- Claim C9 (as amended): with a listener attached, the samples of an
encrypt run whose known total equals the payload length are
non-decreasing and, for a nonempty payload, end exactly at 1 (an empty
payload emits no sample); a decrypt run's samples are also
non-decreasing for every payload size, but the reader divides the
processed post-preamble byte count by the whole container length (salt
line and nonce included), so for a nonempty payload the final sample is
(FILE_HEADER_SIZE + payload)/(container length), strictly below 1. -/
theorem C9_progress_amended (ksOf : List Nat → List Nat → List Nat → Nat → Nat)
    (kind : FileDir)
    (fileName inputPathStr payload dpayload password salt nonce : List Nat)
    (dfileSize : Nat)
    (hnl : fileName.length ≤ 65535) (hpl : inputPathStr.length ≤ 65535)
    (hvn : validUtf8 fileName = true) (hvp : validUtf8 inputPathStr = true)
    (hsalt : isValidSalt salt = true) (hnonce : nonce.length = NONCE_SIZE) :
    (∃ encRes,
      encryptFileModel ksOf kind fileName inputPathStr payload password salt nonce
        payload.length true = Except.ok encRes
      ∧ List.Chain' (· ≤ ·) encRes.samples
      ∧ (0 < payload.length → encRes.samples.getLast? = some 1)
      ∧ (payload.length = 0 → encRes.samples = []))
    ∧ (∃ encRes decRes,
      encryptFileModel ksOf kind fileName inputPathStr dpayload password salt nonce
        dfileSize false = Except.ok encRes
      ∧ decryptFileModel ksOf encRes.container password true = Except.ok decRes
      ∧ List.Chain' (· ≤ ·) decRes.samples
      ∧ (0 < dpayload.length →
          decRes.samples.getLast?
            = some (progressVal (FILE_HEADER_SIZE + dpayload.length)
                (some (salt.length + 1 + NONCE_SIZE + FILE_HEADER_SIZE
                  + dpayload.length)))
          ∧ progressVal (FILE_HEADER_SIZE + dpayload.length)
              (some (salt.length + 1 + NONCE_SIZE + FILE_HEADER_SIZE
                + dpayload.length)) < 1)
      ∧ (dpayload.length = 0 → decRes.samples = [])) := by
  constructor
  · exact encrypt_progress ksOf kind fileName inputPathStr payload password salt nonce
      hnl hpl
  · obtain ⟨hv, encRes, hto, hlen, henc, hcont, hsampE⟩ :=
      encrypt_ok ksOf kind fileName inputPathStr dpayload password salt nonce
        dfileSize false hnl hpl
    have hfv := from_vec_to_vec
      (FileHeader.new (encryptHeaderFlags kind).1 (encryptHeaderFlags kind).2
        ENCRYPTION_VERSION EncMethod.XChaCha20 fileName inputPathStr)
      hnl hpl (Nat.mod_eq_of_lt (by omega))
      (by show ENCRYPTION_VERSION ≤ 65535; decide) hvn hvp hv hto
    obtain ⟨decRes, hdec, hp, hs⟩ :=
      decrypt_progress_run ksOf password salt nonce hv dpayload _ hsalt hnonce hlen hfv
    have hC : CHUNK = 1048576 := rfl
    have hF : FILE_HEADER_SIZE = 1048576 := rfl
    have h4 : 4 ≤ salt.length := (isValidSalt_parts salt hsalt).1
    have hqle : CHUNK * (dpayload.length / CHUNK) ≤ dpayload.length := by
      rw [Nat.mul_comm]
      exact Nat.div_mul_le_self _ _
    refine ⟨encRes, decRes, henc, ?_, ?_, ?_, ?_⟩
    · rw [hcont]
      exact hdec
    · rw [hs]
      by_cases hrem : dpayload.length % CHUNK = 0
      · rw [if_pos hrem, List.append_nil]
        exact (emitSeq_mono _ (dpayload.length / CHUNK) FILE_HEADER_SIZE (by omega)).1
      · rw [if_neg hrem, List.chain'_append]
        refine ⟨(emitSeq_mono _ (dpayload.length / CHUNK) FILE_HEADER_SIZE
            (by omega)).1,
          List.chain'_singleton _, ?_⟩
        intro x hx y hy
        have hxm := List.mem_of_mem_getLast? hx
        have hxb := ((emitSeq_mono _ (dpayload.length / CHUNK) FILE_HEADER_SIZE
          (by omega)).2 x hxm).2
        have hy2 := List.mem_singleton.mp (List.mem_of_mem_head? hy)
        rw [hy2]
        exact le_trans hxb (progressVal_mono _ _ _ (by omega))
    · intro hdp0
      rw [hs]
      by_cases hrem : dpayload.length % CHUNK = 0
      · rw [if_pos hrem, List.append_nil]
        have hmul : CHUNK * (dpayload.length / CHUNK) = dpayload.length :=
          Nat.mul_div_cancel' (Nat.dvd_of_mod_eq_zero hrem)
        have hq0 : 0 < dpayload.length / CHUNK := by
          rcases Nat.eq_zero_or_pos (dpayload.length / CHUNK) with h0 | h0
          · rw [h0, Nat.mul_zero] at hmul
            omega
          · exact h0
        rw [emitSeq_getLast _ (dpayload.length / CHUNK) FILE_HEADER_SIZE hq0, hmul]
        exact ⟨rfl, progressVal_lt_one _ _ (by omega)⟩
      · rw [if_neg hrem, List.getLast?_concat]
        exact ⟨rfl, progressVal_lt_one _ _ (by omega)⟩
    · intro h0
      rw [hs, h0, Nat.zero_div, Nat.zero_mod, if_pos rfl]
      rw [show emitSeq true (some (salt.length + 1 + NONCE_SIZE + FILE_HEADER_SIZE
        + 0)) FILE_HEADER_SIZE 0 = [] from rfl, List.append_nil]

/-- Claim C9 counterexample: a successful decrypt run with a listener
attached and a known total whose final emitted sample is not 1. -/
theorem C9_counterexample :
    ∃ container res,
      decryptFileModel (fun _ _ _ _ => 0) container [] true = Except.ok res
      ∧ res.samples ≠ []
      ∧ res.samples.getLast? ≠ some 1 := by
  have hF : FILE_HEADER_SIZE = 1048576 := rfl
  have hN : NONCE_SIZE = 24 := rfl
  have hC : CHUNK = 1048576 := rfl
  obtain ⟨hv, hto, hlen, _⟩ := to_vec_spec
    (FileHeader.new false false ENCRYPTION_VERSION EncMethod.XChaCha20 [97] [97])
    (by show 12 + ([97] : List Nat).length + ([97] : List Nat).length ≤ FILE_HEADER_SIZE
        decide)
  have hfv := from_vec_to_vec
    (FileHeader.new false false ENCRYPTION_VERSION EncMethod.XChaCha20 [97] [97])
    (by decide) (by decide) (by decide) (by decide) (by decide) (by decide) hv hto
  obtain ⟨res, hdec, hp, hs⟩ :=
    decrypt_progress_run (fun _ _ _ _ => 0) [] [65, 65, 65, 65] (List.replicate 24 0)
      hv [7] _ (by decide) (by decide) hlen hfv
  have hl7 : ([7] : List Nat).length = 1 := rfl
  rw [hl7, Nat.div_eq_of_lt (by omega), Nat.mod_eq_of_lt (by omega)] at hs
  rw [if_neg (by omega)] at hs
  rw [show emitSeq true (some (([65, 65, 65, 65] : List Nat).length + 1 + NONCE_SIZE
    + FILE_HEADER_SIZE + 1)) FILE_HEADER_SIZE 0 = [] from rfl, List.nil_append] at hs
  refine ⟨_, res, hdec, ?_, ?_⟩
  · rw [hs]
    exact List.cons_ne_nil _ _
  · rw [hs]
    intro hc
    have hc2 : (some (progressVal (FILE_HEADER_SIZE + 1)
        (some (([65, 65, 65, 65] : List Nat).length + 1 + NONCE_SIZE
          + FILE_HEADER_SIZE + 1))) : Option ℚ) = some 1 := hc
    have hlt : progressVal (FILE_HEADER_SIZE + 1)
        (some (([65, 65, 65, 65] : List Nat).length + 1 + NONCE_SIZE
          + FILE_HEADER_SIZE + 1)) < 1 := by
      apply progressVal_lt_one
      simp only [List.length_cons, List.length_nil]
      omega
    rw [Option.some.inj hc2] at hlt
    exact lt_irrefl 1 hlt

/-- Claim C9 witness: the amended progress property at a concrete input. -/
theorem C9_progress_amended_witness :
    (([97] : List Nat).length ≤ 65535 ∧ validUtf8 [97] = true
      ∧ isValidSalt [65, 65, 65, 65] = true
      ∧ (List.replicate 24 0).length = NONCE_SIZE)
    ∧ ((∃ encRes,
      encryptFileModel (fun _ _ _ _ => 0) FileDir.File [97] [97] [1, 2, 3] []
        [65, 65, 65, 65] (List.replicate 24 0) ([1, 2, 3] : List Nat).length true
        = Except.ok encRes
      ∧ List.Chain' (· ≤ ·) encRes.samples
      ∧ (0 < ([1, 2, 3] : List Nat).length → encRes.samples.getLast? = some 1)
      ∧ (([1, 2, 3] : List Nat).length = 0 → encRes.samples = []))
    ∧ (∃ encRes decRes,
      encryptFileModel (fun _ _ _ _ => 0) FileDir.File [97] [97] [7] []
        [65, 65, 65, 65] (List.replicate 24 0) 1 false = Except.ok encRes
      ∧ decryptFileModel (fun _ _ _ _ => 0) encRes.container [] true = Except.ok decRes
      ∧ List.Chain' (· ≤ ·) decRes.samples
      ∧ (0 < ([7] : List Nat).length →
          decRes.samples.getLast?
            = some (progressVal (FILE_HEADER_SIZE + ([7] : List Nat).length)
                (some (([65, 65, 65, 65] : List Nat).length + 1 + NONCE_SIZE
                  + FILE_HEADER_SIZE + ([7] : List Nat).length)))
          ∧ progressVal (FILE_HEADER_SIZE + ([7] : List Nat).length)
              (some (([65, 65, 65, 65] : List Nat).length + 1 + NONCE_SIZE
                + FILE_HEADER_SIZE + ([7] : List Nat).length)) < 1)
      ∧ (([7] : List Nat).length = 0 → decRes.samples = []))) :=
  ⟨⟨by decide, by decide, by decide, by decide⟩,
    C9_progress_amended (fun _ _ _ _ => 0) FileDir.File [97] [97] [1, 2, 3] [7] []
      [65, 65, 65, 65] (List.replicate 24 0) 1 (by decide) (by decide) (by decide)
      (by decide) (by decide) (by decide)⟩
